import Mathlib

/-!
Verification of the Korner indirect-fire solver core against its
specification.  The definitions below are a shallow embedding of the Python
sources (src/ballistics.py, src/models.py, src/weapon.py, src/utils.py,
src/solver.py, src/table_cache.py).  Floating-point numbers are idealised as
real numbers; numpy arrays become lists; Python exceptions become Except
values.  The repository's config.py module is not part of the provided
sources, so the constants it exports (G, SHELL_MASS_KG, AIR_DRAG,
MAX_ELEVATION_MIL) are threaded through the definitions as explicit
parameters; MIL_CIRCLE is fixed from the specification's glossary.
-/

set_option maxHeartbeats 1000000

open scoped Classical

/-! ## src/ballistics.py -/

/-- The 6-dimensional state vector `[x, y, z, vx, vy, vz]` of
src/ballistics.py (`np.array` of length 6): position downrange/altitude/drift
and the three velocity components.  A derivative vector reuses the same
layout, its position slots holding velocities and its velocity slots
holding accelerations. -/
structure State6 where
  x : ℝ
  y : ℝ
  z : ℝ
  vx : ℝ
  vy : ℝ
  vz : ℝ

/-- Componentwise sum of two state vectors (numpy elementwise `+`). -/
def sadd (a b : State6) : State6 :=
  ⟨a.x + b.x, a.y + b.y, a.z + b.z, a.vx + b.vx, a.vy + b.vy, a.vz + b.vz⟩

/-- Scalar multiple of a state vector (numpy scalar `*`). -/
def ssmul (c : ℝ) (a : State6) : State6 :=
  ⟨c * a.x, c * a.y, c * a.z, c * a.vx, c * a.vy, c * a.vz⟩

/-- The derivative law `_deriv` of src/ballistics.py: wind-relative quadratic
drag on every axis plus gravity `-g` on the y-acceleration; `g` models the
constant `G` imported from the absent config.py. -/
noncomputable def _deriv (g : ℝ) (s : State6) (wind : ℝ × ℝ × ℝ)
    (air_drag mass : ℝ) : State6 :=
  let rvx := s.vx - wind.1
  let rvy := s.vy - wind.2.1
  let rvz := s.vz - wind.2.2
  let vrel := Real.sqrt (rvx * rvx + rvy * rvy + rvz * rvz) + 1e-9
  let k := air_drag / mass
  ⟨s.vx, s.vy, s.vz, -k * vrel * rvx, -g - k * vrel * rvy, -k * vrel * rvz⟩

/-- One classic 4-stage Runge-Kutta update of the state, the body
`k1 .. k4, s + (dt/6)*(k1 + 2*k2 + 2*k3 + k4)` of the loop in
`simulate_rk4` (src/ballistics.py lines 40-44). -/
noncomputable def rk4Step (g : ℝ) (wind : ℝ × ℝ × ℝ) (air_drag mass dt : ℝ)
    (s : State6) : State6 :=
  let k1 := _deriv g s wind air_drag mass
  let k2 := _deriv g (sadd s (ssmul (0.5 * dt) k1)) wind air_drag mass
  let k3 := _deriv g (sadd s (ssmul (0.5 * dt) k2)) wind air_drag mass
  let k4 := _deriv g (sadd s (ssmul dt k3)) wind air_drag mass
  sadd s (ssmul (dt / 6) (sadd (sadd k1 (ssmul 2 k2)) (sadd (ssmul 2 k3) k4)))

/-- The integration loop of `simulate_rk4` (src/ballistics.py lines 39-50):
starting at step index `i` with current state `s` and previous altitude
`lasty`, produce the recorded samples `(t[i], state)` for the remaining
iterations (`fuel` of them), breaking at the ground-impact rule
`stop_on_ground and i > 5 and y[i] < 0 and y[i] - lasty < 0`. -/
noncomputable def simRun (step : State6 → State6) (dt : ℝ)
    (stop_on_ground : Bool) : ℕ → ℕ → State6 → ℝ → List (ℝ × State6)
  | 0, _, _, _ => []
  | fuel + 1, i, s, lasty =>
    if stop_on_ground = true ∧ 5 < i ∧ (step s).y < 0 ∧ (step s).y - lasty < 0
    then [((i : ℝ) * dt, step s)]
    else ((i : ℝ) * dt, step s) ::
      simRun step dt stop_on_ground fuel (i + 1) (step s) (step s).y

/-- The sequence of states reached by iterating one integration step from the
launch state; `stateSeq step s0 n` is the state after `n` steps. -/
noncomputable def stateSeq (step : State6 → State6) (s0 : State6) : ℕ → State6
  | 0 => s0
  | n + 1 => step (stateSeq step s0 n)

/-- The `Trajectory` dataclass of src/ballistics.py: four index-aligned
sample arrays (time, downrange, altitude, drift). -/
structure Trajectory where
  t : List ℝ
  x : List ℝ
  y : List ℝ
  z : List ℝ

/-- The integrator `simulate_rk4` of src/ballistics.py: initial velocity
decomposed from `v0` and `elev_rad`, step budget
`int(max(1, ceil(ttl/dt)))`, launch sample all zero at index 0, then the
recorded RK4 samples.  The parameter `g` models config.G. -/
noncomputable def simulate_rk4 (g : ℝ) (v0 elev_rad mass air_drag : ℝ)
    (wind_ff : ℝ × ℝ × ℝ) (dt ttl : ℝ) (stop_on_ground : Bool) : Trajectory :=
  let vx0 := v0 * Real.cos elev_rad
  let vy0 := v0 * Real.sin elev_rad
  let s0 : State6 := ⟨0, 0, 0, vx0, vy0, 0⟩
  let nmax : ℕ := (max 1 ⌈ttl / dt⌉).toNat
  let samples := simRun (rk4Step g wind_ff air_drag mass dt) dt stop_on_ground
    nmax 1 s0 0
  ⟨0 :: samples.map Prod.fst, 0 :: samples.map (fun p => p.2.x),
   0 :: samples.map (fun p => p.2.y), 0 :: samples.map (fun p => p.2.z)⟩

/-- Squared distances `dx*dx + dy*dy + dz*dz` from each trajectory sample to
the target point, the arrays `d2` of `closest_approach`
(src/ballistics.py lines 54-55). -/
def d2list (tx ty tz : ℝ) : List ℝ → List ℝ → List ℝ → List ℝ
  | xi :: xs, yi :: ys, zi :: zs =>
    ((xi - tx) * (xi - tx) + (yi - ty) * (yi - ty) + (zi - tz) * (zi - tz)) ::
      d2list tx ty tz xs ys zs
  | _, _, _ => []

/-- Helper for `np.argmin`: the index of the first minimum of the remaining
list, given the best value `bv` seen so far at index `bi`, with `i` the index
of the head of the remaining list. -/
noncomputable def argminAux : List ℝ → ℕ → ℝ → ℕ → ℕ
  | [], bi, _, _ => bi
  | v :: rest, bi, bv, i =>
    if v < bv then argminAux rest i v (i + 1) else argminAux rest bi bv (i + 1)

/-- The behaviour of `np.argmin` on a list: the index of the first occurrence
of the minimum (0 on an empty list, where numpy would raise). -/
noncomputable def argminIdx : List ℝ → ℕ
  | [] => 0
  | v :: rest => argminAux rest 0 v 1

/-- The evaluator `closest_approach` of src/ballistics.py lines 53-57: the
sample of minimal squared distance to the target (first minimum on ties, as
`np.argmin` returns) and the Euclidean miss magnitude there. -/
noncomputable def closest_approach (tr : Trajectory) (tx ty tz : ℝ) :
    ℝ × ℝ × ℝ × ℝ :=
  let d2 := d2list tx ty tz tr.x tr.y tr.z
  let idx := argminIdx d2
  (tr.x.getD idx 0, tr.y.getD idx 0, tr.z.getD idx 0,
    Real.sqrt (d2.getD idx 0))

/-- The scan `for i in range(1, len(y)): if y[i] <= 0.0 and y[i-1] > 0.0`
of `impact_range` (src/ballistics.py lines 63-66): the first index `i`
(counting from the given start index) at which altitude crosses downward. -/
noncomputable def findCrossAux : List ℝ → ℕ → Option ℕ
  | y0 :: y1 :: rest, i =>
    if y1 ≤ 0 ∧ 0 < y0 then some i else findCrossAux (y1 :: rest) (i + 1)
  | _, _ => none

/-- The first downward-crossing index of an altitude array, `none` when no
consecutive pair crosses. -/
noncomputable def findCross (y : List ℝ) : Option ℕ := findCrossAux y 1

/-- The evaluator `impact_range` of src/ballistics.py lines 59-73: final (or
zero) sample for short trajectories, final sample when no crossing exists,
otherwise linear interpolation at the first downward zero-crossing with the
fraction `a = (0 - y0)/(y1 - y0)` guarded against a zero denominator. -/
noncomputable def impact_range (tr : Trajectory) : ℝ × ℝ :=
  if tr.y.length < 2 then
    (tr.x.getLastD 0, tr.t.getLastD 0)
  else
    match findCross tr.y with
    | none => (tr.x.getLastD 0, tr.t.getLastD 0)
    | some idx =>
      let y0 := tr.y.getD (idx - 1) 0
      let y1 := tr.y.getD idx 0
      let x0 := tr.x.getD (idx - 1) 0
      let x1 := tr.x.getD idx 0
      let t0 := tr.t.getD (idx - 1) 0
      let t1 := tr.t.getD idx 0
      let a := if y1 - y0 ≠ 0 then (0 - y0) / (y1 - y0) else 0
      (x0 + a * (x1 - x0), t0 + a * (t1 - t0))

/-! ## src/models.py, src/weapon.py, src/utils.py -/

/-- The firing-arc selector of a request; the source stores a string and
tests `== "LOW"` / `== "HIGH"`, any other value falling to the ANY branch. -/
inductive Arc where
  | LOW : Arc
  | HIGH : Arc
  | ANY : Arc
deriving DecidableEq

/-- The `SolveRequest` dataclass of src/models.py: target offsets in the
fire frame, fire-frame wind, arc and direct-fire mode, tolerance and the
integration step/time-to-live. -/
structure SolveRequest where
  target_x_m : ℝ
  target_y_m : ℝ
  target_z_m : ℝ
  wind_ff : ℝ × ℝ × ℝ
  arc : Arc
  direct_fire : Bool
  tolerance_m : ℝ
  dt : ℝ
  ttl : ℝ

/-- The `ShotResult` dataclass of src/models.py. -/
structure ShotResult where
  charge : ℤ
  elev_mil : ℝ
  v0 : ℝ
  tof : ℝ
  miss_total_m : ℝ
  miss_range_m : ℝ
  miss_alt_m : ℝ
  miss_drift_m : ℝ

/-- Lookup in a Python dict modelled as an association list: the value at
the first matching key, `none` when the key is absent (a `KeyError`). -/
def dictLookup {β : Type} (k : ℤ) : List (ℤ × β) → Option β
  | [] => none
  | (k', v) :: rest => if k' = k then some v else dictLookup k rest

/-- The keys of a Python dict modelled as an association list. -/
def dictKeys {β : Type} (d : List (ℤ × β)) : List ℤ := d.map Prod.fst

/-- The error a missing configuration raises: an unknown charge id
(`KeyError` from `self.charges[int(charge)]`, the spec's InvalidCharge), a
table file that cannot be read or parsed (`np.load` failure), or a missing
`range_c<id>` array in a loaded table file. -/
inductive CoreError where
  | InvalidCharge : CoreError
  | BadTableFile : CoreError
  | MissingArray : CoreError
deriving DecidableEq

/-- The `Weapon` class of src/weapon.py: a base muzzle velocity and the
charge-id to velocity-multiplier catalog.  The constructor copies the
constants BASE_V0 and CHARGE_COEFF from the absent config.py, so the fields
are left unconstrained here. -/
structure Weapon where
  base_speed : ℝ
  charges : List (ℤ × ℝ)

/-- The method `Weapon.v0_for_charge` (src/weapon.py lines 54-55):
`base_speed * charges[charge]`, failing on an unknown charge id. -/
def Weapon.v0_for_charge (w : Weapon) (charge : ℤ) : Except CoreError ℝ :=
  match dictLookup charge w.charges with
  | some m => .ok (w.base_speed * m)
  | none => .error .InvalidCharge

/-- The constant MIL_CIRCLE of the absent config.py.  Modelled from the
spec: the glossary fixes 6400 mils per full circle. -/
noncomputable def MIL_CIRCLE : ℝ := 6400

/-- The conversion `mil_to_rad` of src/utils.py. -/
noncomputable def mil_to_rad (mil : ℝ) : ℝ :=
  (mil / MIL_CIRCLE) * (2 * Real.pi)

/-! ## src/table_cache.py -/

/-- The `TableSet` class of src/table_cache.py, already parsed from one
`.npz` table file: the elevation sample array, the charge-id list and the
per-charge `range_c<id>` arrays (kept as an association list, a missing
entry modelling the `KeyError` numpy raises for an absent array name). -/
structure TableSet where
  elev : List ℝ
  charges : List ℤ
  ranges : List (ℤ × List ℝ)

/-- The `TableManager` class of src/table_cache.py: up to three table sets,
one per firing arc. -/
structure TableManager where
  direct : Option TableSet
  low : Option TableSet
  high : Option TableSet

/-- The method `TableManager.loaded`: all three table sets are present. -/
def TableManager.loaded (tm : TableManager) : Bool :=
  tm.direct.isSome && tm.low.isSome && tm.high.isSome

/-- The contents of a table folder as seen by `TableManager.load_folder`:
the outcome of attempting to read and parse each of the three fixed file
names (`ballistic_direct.npz`, `ballistic_low.npz`, `ballistic_high.npz`).
Modelled from the spec: the on-disk reads of np.load are abstracted into
per-file parse results, a failure standing for a missing or malformed
file. -/
structure FolderData where
  directFile : Except CoreError TableSet
  lowFile : Except CoreError TableSet
  highFile : Except CoreError TableSet

/-- The method `TableManager.load_folder` (src/table_cache.py lines 37-41):
construct the three table sets, the first read/parse failure propagating
to the caller. -/
def load_folder (fd : FolderData) : Except CoreError TableManager :=
  match fd.directFile with
  | .error e => .error e
  | .ok d =>
    match fd.lowFile with
    | .error e => .error e
    | .ok l =>
      match fd.highFile with
      | .error e => .error e
      | .ok h => .ok ⟨some d, some l, some h⟩

/-- The method `TableSet.guess_elev_for_range` (src/table_cache.py lines
21-24): the elevation whose precomputed range is nearest the target range
(`np.argmin(np.abs(ranges - target))`), failing when the `range_c<id>`
array for the charge is absent from the file. -/
noncomputable def guess_elev_for_range (ts : TableSet) (cid : ℤ)
    (target_range : ℝ) : Except CoreError ℝ :=
  match dictLookup cid ts.ranges with
  | none => .error .MissingArray
  | some rs =>
    .ok (ts.elev.getD (argminIdx (rs.map (fun r => |r - target_range|))) 0)

/-- The behaviour of `np.linspace(start, stop, n)` for `n ≥ 2`: `n` evenly
spaced values from `start` to `stop` inclusive. -/
noncomputable def linspace (start stop : ℝ) (n : ℕ) : List ℝ :=
  (List.range n).map
    (fun i : ℕ => start + (i : ℝ) * ((stop - start) / ((n : ℝ) - 1)))

/-! ## The shared candidate evaluator `_eval`

The identical helper appears in src/solver.py lines 8-17 and
src/table_cache.py lines 43-50: simulate the shot and score it by closest
approach to the target point.  The parameters `g`, `mass` and `air_drag`
model the constants G, SHELL_MASS_KG and AIR_DRAG of the absent config.py. -/

/-- The helper `_eval`: one integration plus closest-approach scoring,
producing a `ShotResult` with a zero charge tag (the caller stamps it). -/
noncomputable def evalShot (g mass air_drag : ℝ) (req : SolveRequest)
    (v0 elev_mil : ℝ) : ShotResult :=
  let tr := simulate_rk4 g v0 (mil_to_rad elev_mil) mass air_drag req.wind_ff
    req.dt req.ttl true
  let c := closest_approach tr req.target_x_m req.target_y_m req.target_z_m
  ⟨0, elev_mil, v0, tr.t.getLastD 0, c.2.2.2,
    c.1 - req.target_x_m, c.2.1 - req.target_y_m, c.2.2.1 - req.target_z_m⟩

/-- The charge-stamped candidate result `r = _eval(req, v0, em); r.charge = cid`. -/
noncomputable def cand (g mass air_drag : ℝ) (req : SolveRequest)
    (v0 : ℝ) (cid : ℤ) (em : ℝ) : ShotResult :=
  { evalShot g mass air_drag req v0 em with charge := cid }

/-! ## src/solver.py -/

/-- The behaviour of `np.arange(start, stop, step)` for a positive step:
`start + i * step` for `i` below `ceil((stop - start)/step)`. -/
noncomputable def arangeList (start stop step : ℝ) : List ℝ :=
  (List.range (⌈(stop - start) / step⌉).toNat).map
    (fun i : ℕ => start + (i : ℝ) * step)

/-- The elevation-band table of `suggest_best` (src/solver.py lines 31-38),
selected by the request mode; `maxElev` models MAX_ELEVATION_MIL of the
absent config.py. -/
def bands (req : SolveRequest) (maxElev : ℝ) : List (ℝ × ℝ) :=
  if req.direct_fire then [(0, 250)]
  else if req.arc = Arc.LOW then [(0, 650)]
  else if req.arc = Arc.HIGH then [(650, maxElev)]
  else [(0, 650), (650, maxElev)]

/-- The innermost loop of `suggest_best` (src/solver.py lines 42-45): fold
the candidate elevations, keeping the first-encountered minimum total miss
(`if best is None or r.miss_total_m < best.miss_total_m`). -/
noncomputable def elevLoop (g mass air_drag : ℝ) (req : SolveRequest)
    (v0 : ℝ) (cid : ℤ) : List ℝ → Option ShotResult → Option ShotResult
  | [], best => best
  | em :: rest, best =>
    let r := cand g mass air_drag req v0 cid em
    let best' := match best with
      | none => some r
      | some b => if r.miss_total_m < b.miss_total_m then some r else some b
    elevLoop g mass air_drag req v0 cid rest best'

/-- The band loop of `suggest_best` (src/solver.py lines 41-47) for one
charge: after each band's elevation scan, return early (flag `true`) when
the best so far meets the tolerance. -/
noncomputable def bandLoop (g mass air_drag : ℝ) (req : SolveRequest)
    (v0 : ℝ) (cid : ℤ) : List (ℝ × ℝ) → Option ShotResult →
    Option ShotResult × Bool
  | [], best => (best, false)
  | (emin, emax) :: rest, best =>
    let best' := elevLoop g mass air_drag req v0 cid
      (arangeList emin (emax + 1e-6) 25) best
    match best' with
    | some b =>
      if b.miss_total_m ≤ req.tolerance_m then (best', true)
      else bandLoop g mass air_drag req v0 cid rest best'
    | none => bandLoop g mass air_drag req v0 cid rest best'

/-- The charge loop of `suggest_best` (src/solver.py lines 39-47): charges in
ascending id order, `v0_for_charge` failures propagating as in Python, a
band-level early exit returning the running best immediately. -/
noncomputable def chargeLoop (g mass air_drag : ℝ) (req : SolveRequest)
    (w : Weapon) (maxElev : ℝ) : List ℤ → Option ShotResult →
    Except CoreError (Option ShotResult)
  | [], best => .ok best
  | cid :: rest, best =>
    match w.v0_for_charge cid with
    | .error e => .error e
    | .ok v0 =>
      match bandLoop g mass air_drag req v0 cid (bands req maxElev) best with
      | (best', true) => .ok best'
      | (best', false) => chargeLoop g mass air_drag req w maxElev rest best'

/-- The ascending charge-id iteration order `sorted(weapon.charges.keys())`. -/
def sortedKeys (w : Weapon) : List ℤ :=
  List.insertionSort (· ≤ ·) (dictKeys w.charges)

/-! ## src/table_cache.py, `fast_solve` -/

/-- One refinement round of `fast_solve` (src/table_cache.py lines 72-85):
sample 11 evenly spaced elevations across the window clamped to
`[0, maxElev]`, keep the round's local best, fold it into the running best,
recenter on the local best's elevation, shrink the window by
`max(6, window * 0.45)`, and flag an early return when the running best
meets the tolerance.  The unreachable `none` local (the 11-point sample is
never empty) leaves the state unchanged, where Python would raise. -/
noncomputable def refineStep (g mass air_drag : ℝ) (req : SolveRequest)
    (maxElev v0 : ℝ) (cid : ℤ) (best : Option ShotResult)
    (center window : ℝ) : Option ShotResult × ℝ × ℝ × Bool :=
  let start := max 0 (center - window)
  let stop := min maxElev (center + window)
  let elevs := linspace start stop 11
  match elevLoop g mass air_drag req v0 cid elevs none with
  | none => (best, center, window, false)
  | some l =>
    let best' := match best with
      | none => some l
      | some b => if l.miss_total_m < b.miss_total_m then some l else some b
    let center' := l.elev_mil
    let window' := max 6 (window * 0.45)
    match best' with
    | some b' =>
      if b'.miss_total_m ≤ req.tolerance_m then (best', center', window', true)
      else (best', center', window', false)
    | none => (best', center', window', false)

/-- The `for _ in range(4)` refinement loop of `fast_solve`: iterate
`refineStep`, an early return abandoning the remaining rounds. -/
noncomputable def refineRounds (g mass air_drag : ℝ) (req : SolveRequest)
    (maxElev v0 : ℝ) (cid : ℤ) : ℕ → Option ShotResult → ℝ → ℝ →
    Option ShotResult × Bool
  | 0, best, _, _ => (best, false)
  | n + 1, best, center, window =>
    match refineStep g mass air_drag req maxElev v0 cid best center window with
    | (best', _, _, true) => (best', true)
    | (best', center', window', false) =>
      refineRounds g mass air_drag req maxElev v0 cid n best' center' window'

/-- Instrumentation of `refineRounds`: the `(center, window)` pair of every
round the refinement loop actually executes. -/
noncomputable def refineTrace (g mass air_drag : ℝ) (req : SolveRequest)
    (maxElev v0 : ℝ) (cid : ℤ) : ℕ → Option ShotResult → ℝ → ℝ →
    List (ℝ × ℝ)
  | 0, _, _, _ => []
  | n + 1, best, center, window =>
    (center, window) ::
      match refineStep g mass air_drag req maxElev v0 cid best center window with
      | (_, _, _, true) => []
      | (best', center', window', false) =>
        refineTrace g mass air_drag req maxElev v0 cid n best' center' window'

/-- The charge loop of `fast_solve` (src/table_cache.py lines 62-85) over one
table set: charges in the order the table file lists them, each seeded by
`guess_elev_for_range` and refined over 4 rounds from a 50-mil window, a
tolerance hit returning the running best immediately; lookup failures
propagate as in Python. -/
noncomputable def fastChargeLoop (g mass air_drag : ℝ) (req : SolveRequest)
    (w : Weapon) (maxElev : ℝ) (ts : TableSet) : List ℤ →
    Option ShotResult → Except CoreError (Option ShotResult × Bool)
  | [], best => .ok (best, false)
  | cid :: rest, best =>
    match w.v0_for_charge cid with
    | .error e => .error e
    | .ok v0 =>
      match guess_elev_for_range ts cid req.target_x_m with
      | .error e => .error e
      | .ok center =>
        match refineRounds g mass air_drag req maxElev v0 cid 4 best center 50 with
        | (best', true) => .ok (best', true)
        | (best', false) => fastChargeLoop g mass air_drag req w maxElev ts rest best'

/-- The table-set loop of `fast_solve` (src/table_cache.py lines 61-86). -/
noncomputable def fastSetsLoop (g mass air_drag : ℝ) (req : SolveRequest)
    (w : Weapon) (maxElev : ℝ) : List TableSet → Option ShotResult →
    Except CoreError (Option ShotResult)
  | [], best => .ok best
  | ts :: rest, best =>
    match fastChargeLoop g mass air_drag req w maxElev ts ts.charges best with
    | .error e => .error e
    | .ok (best', true) => .ok best'
    | .ok (best', false) => fastSetsLoop g mass air_drag req w maxElev rest best'

/-- The table-accelerated solver `fast_solve` of src/table_cache.py lines
52-87: `none` immediately when the manager is not fully loaded, otherwise
the arc-selected table sets are searched in order. -/
noncomputable def fast_solve (g mass air_drag : ℝ) (req : SolveRequest)
    (w : Weapon) (maxElev : ℝ) (tm : TableManager) :
    Except CoreError (Option ShotResult) :=
  match tm.direct, tm.low, tm.high with
  | some d, some l, some h =>
    let sets :=
      if req.direct_fire then [d]
      else if req.arc = Arc.LOW then [l]
      else if req.arc = Arc.HIGH then [h]
      else [l, h]
    fastSetsLoop g mass air_drag req w maxElev sets none
  | _, _, _ => .ok none

/-! ## src/solver.py, `suggest_best` -/

/-- The solver entry point `suggest_best` of src/solver.py lines 20-49: when
a table manager is supplied, try `fast_solve` first, any exception or a
`None` result falling back to the brute-force charge/band/elevation scan
(`try ... except Exception: pass`). -/
noncomputable def suggest_best (g mass air_drag : ℝ) (req : SolveRequest)
    (w : Weapon) (maxElev : ℝ) (tables : Option TableManager) :
    Except CoreError (Option ShotResult) :=
  match tables with
  | some tm =>
    match fast_solve g mass air_drag req w maxElev tm with
    | .ok (some r) => .ok (some r)
    | _ => chargeLoop g mass air_drag req w maxElev (sortedKeys w) none
  | none => chargeLoop g mass air_drag req w maxElev (sortedKeys w) none

/-! ## Instrumentation of the brute-force scan

The spec's testable property for the early exit is phrased through
call-count instrumentation; the trace functions below mirror the loops of
`suggest_best` exactly, recording each `(charge, elevation)` pair passed to
`_eval` instead of the running best. -/

/-- The candidate elevations of one band, `np.arange(emin, emax + 1e-6, 25)`. -/
noncomputable def bandElevs (b : ℝ × ℝ) : List ℝ :=
  arangeList b.1 (b.2 + 1e-6) 25

/-- The candidates `(cid, em)` the band loop evaluates, mirroring
`bandLoop`: every band up to and including the one whose scan first meets
the tolerance. -/
noncomputable def bandTrace (g mass air_drag : ℝ) (req : SolveRequest)
    (v0 : ℝ) (cid : ℤ) : List (ℝ × ℝ) → Option ShotResult → List (ℤ × ℝ)
  | [], _ => []
  | (emin, emax) :: rest, best =>
    let elevs := arangeList emin (emax + 1e-6) 25
    let best' := elevLoop g mass air_drag req v0 cid elevs best
    elevs.map (fun em => (cid, em)) ++
      match best' with
      | some b =>
        if b.miss_total_m ≤ req.tolerance_m then []
        else bandTrace g mass air_drag req v0 cid rest best'
      | none => bandTrace g mass air_drag req v0 cid rest best'

/-- The candidates the charge loop evaluates, mirroring `chargeLoop`. -/
noncomputable def chargeTrace (g mass air_drag : ℝ) (req : SolveRequest)
    (w : Weapon) (maxElev : ℝ) : List ℤ → Option ShotResult → List (ℤ × ℝ)
  | [], _ => []
  | cid :: rest, best =>
    match w.v0_for_charge cid with
    | .error _ => []
    | .ok v0 =>
      bandTrace g mass air_drag req v0 cid (bands req maxElev) best ++
        match bandLoop g mass air_drag req v0 cid (bands req maxElev) best with
        | (_, true) => []
        | (best', false) => chargeTrace g mass air_drag req w maxElev rest best'

/-- The full 25-mil candidate grid of the brute-force scan: every band of
every charge in ascending charge order, nothing skipped. -/
noncomputable def fullGrid (req : SolveRequest) (w : Weapon) (maxElev : ℝ) :
    List (ℤ × ℝ) :=
  (sortedKeys w).flatMap (fun cid =>
    (bands req maxElev).flatMap (fun b => (bandElevs b).map (fun em => (cid, em))))

/-- The window sequence of the table-accelerated refinement: 50 mil at the
first round, then `max(6, window * 0.45)`. -/
noncomputable def windowSeq : ℕ → ℝ
  | 0 => 50
  | n + 1 => max 6 (windowSeq n * 0.45)

/-! ## Dictionary lemmas -/

theorem dictLookup_eq_some {β : Type} (l : List (ℤ × β)) (k : ℤ) (v : β)
    (hnd : (dictKeys l).Nodup) (hm : (k, v) ∈ l) : dictLookup k l = some v := by
  induction l with
  | nil => cases hm
  | cons p rest ih =>
    obtain ⟨k', v'⟩ := p
    simp only [dictKeys, List.map_cons, List.nodup_cons] at hnd
    rcases List.mem_cons.mp hm with h | h
    · rw [Prod.mk.injEq] at h
      obtain ⟨h1, h2⟩ := h
      subst h1
      subst h2
      simp [dictLookup]
    · have hk : k' ≠ k := by
        intro he
        subst he
        exact hnd.1 (List.mem_map.mpr ⟨(k', v), h, rfl⟩)
      simp only [dictLookup, if_neg hk]
      exact ih hnd.2 h

theorem dictLookup_eq_none {β : Type} (l : List (ℤ × β)) (k : ℤ)
    (hm : k ∉ dictKeys l) : dictLookup k l = none := by
  induction l with
  | nil => rfl
  | cons p rest ih =>
    obtain ⟨k', v'⟩ := p
    simp only [dictKeys, List.map_cons, List.mem_cons, not_or] at hm
    have hk : ¬ k' = k := fun he => hm.1 (Eq.symm he)
    simp only [dictLookup, if_neg hk]
    exact ih hm.2

theorem dictLookup_isSome {β : Type} (l : List (ℤ × β)) (k : ℤ)
    (hm : k ∈ dictKeys l) : ∃ v, dictLookup k l = some v := by
  induction l with
  | nil => cases hm
  | cons p rest ih =>
    obtain ⟨k', v'⟩ := p
    by_cases hk : k' = k
    · exact ⟨v', by simp [dictLookup, hk]⟩
    · simp only [dictKeys, List.map_cons, List.mem_cons] at hm
      rcases hm with h | h
      · exact absurd h.symm hk
      · obtain ⟨v, hv⟩ := ih h
        exact ⟨v, by simp [dictLookup, hk, hv]⟩

/-- C8: for a charge id present in the catalog (with the distinct keys a
Python dict guarantees), `v0_for_charge` returns the base muzzle velocity
times the stored multiplier; for an id absent from the catalog it fails with
the InvalidCharge error instead of returning a value. -/
theorem v0_for_charge_spec (w : Weapon)
    (hnd : (dictKeys w.charges).Nodup) :
    (∀ cid m, (cid, m) ∈ w.charges →
      w.v0_for_charge cid = .ok (w.base_speed * m)) ∧
    (∀ cid, cid ∉ dictKeys w.charges →
      w.v0_for_charge cid = .error .InvalidCharge) := by
  constructor
  · intro cid m hm
    unfold Weapon.v0_for_charge
    rw [dictLookup_eq_some w.charges cid m hnd hm]
  · intro cid hm
    unfold Weapon.v0_for_charge
    rw [dictLookup_eq_none w.charges cid hm]

/-- Witness for C8 at a concrete catalog. -/
theorem v0_for_charge_spec_witness :
    Weapon.v0_for_charge ⟨2, [(1, 3), (2, 4)]⟩ 1 = .ok (2 * 3) ∧
    Weapon.v0_for_charge ⟨2, [(1, 3), (2, 4)]⟩ 5 = .error .InvalidCharge := by
  have h := v0_for_charge_spec ⟨2, [(1, 3), (2, 4)]⟩ (by decide)
  exact ⟨h.1 1 3 (by simp), h.2 5 (by decide)⟩

/-! ## Integrator loop characterization (C1, C10) -/

/-- The ground-impact stop condition of the integrator, read along the
state sequence: at step index `j`, past the launch guard (`j > 5`), the
altitude is below zero and decreased from the previous step. -/
noncomputable def stopCond (step : State6 → State6) (s0 : State6) (j : ℕ) : Prop :=
  5 < j ∧ (stateSeq step s0 j).y < 0 ∧
    (stateSeq step s0 j).y - (stateSeq step s0 (j - 1)).y < 0

theorem range_map_shift {α : Type} (n i : ℕ) (f : ℕ → α) :
    (List.range (n + 1)).map (fun k => f (i + k)) =
      f i :: (List.range n).map (fun k => f (i + 1 + k)) := by
  rw [List.range_succ_eq_map, List.map_cons, List.map_map]
  refine congrArg₂ _ (by rw [Nat.add_zero]) ?_
  have hc : ((fun k => f (i + k)) ∘ Nat.succ) = fun k => f (i + 1 + k) := by
    funext k
    show f (i + (k + 1)) = f (i + 1 + k)
    exact congrArg f (by omega)
  rw [hc]

theorem range_map_shift_sample (step : State6 → State6) (s0 : State6)
    (dt : ℝ) (n i : ℕ) :
    (List.range (n + 1)).map
        (fun k => (((i + k : ℕ) : ℝ) * dt, stateSeq step s0 (i + k))) =
      ((i : ℝ) * dt, stateSeq step s0 i) ::
        (List.range n).map
          (fun k => (((i + 1 + k : ℕ) : ℝ) * dt, stateSeq step s0 (i + 1 + k))) :=
  range_map_shift n i (fun m => ((m : ℝ) * dt, stateSeq step s0 m))

theorem range_one_map_sample (step : State6 → State6) (s0 : State6)
    (dt : ℝ) (i : ℕ) :
    (List.range 1).map
        (fun k => (((i + k : ℕ) : ℝ) * dt, stateSeq step s0 (i + k))) =
      [((i : ℝ) * dt, stateSeq step s0 i)] := by
  simpa using range_map_shift_sample step s0 dt 0 i

theorem simRun_length_pos (step : State6 → State6) (dt : ℝ) (sog : Bool)
    (fuel i : ℕ) (s : State6) (ly : ℝ) (hf : 1 ≤ fuel) :
    1 ≤ (simRun step dt sog fuel i s ly).length := by
  obtain ⟨fuel', rfl⟩ : ∃ f', fuel = f' + 1 := ⟨fuel - 1, by omega⟩
  simp only [simRun]
  split
  · simp
  · simp

theorem simRun_shape (step : State6 → State6) (dt : ℝ) (s0 : State6) :
    ∀ (fuel i : ℕ) (s : State6) (ly : ℝ), 1 ≤ i →
      s = stateSeq step s0 (i - 1) → ly = (stateSeq step s0 (i - 1)).y →
      ∃ n, n ≤ fuel ∧
        simRun step dt true fuel i s ly =
          (List.range n).map
            (fun k => (((i + k : ℕ) : ℝ) * dt, stateSeq step s0 (i + k))) := by
  intro fuel
  induction fuel with
  | zero =>
    intro i s ly hi hs hly
    exact ⟨0, le_rfl, by simp [simRun]⟩
  | succ fuel ih =>
    intro i s ly hi hs hly
    subst hs
    subst hly
    have hstep : step (stateSeq step s0 (i - 1)) = stateSeq step s0 i := by
      have h2 : i - 1 + 1 = i := Nat.succ_pred_eq_of_pos hi
      calc step (stateSeq step s0 (i - 1)) = stateSeq step s0 (i - 1 + 1) := rfl
        _ = stateSeq step s0 i := by rw [h2]
    simp only [simRun]
    split
    · refine ⟨1, by omega, ?_⟩
      rw [hstep, range_one_map_sample]
    · obtain ⟨n, hn, heq⟩ := ih (i + 1) (step (stateSeq step s0 (i - 1)))
        ((step (stateSeq step s0 (i - 1))).y) (by omega)
        (by rw [hstep, Nat.add_sub_cancel]) (by rw [hstep, Nat.add_sub_cancel])
      refine ⟨n + 1, by omega, ?_⟩
      rw [heq, hstep, ← range_map_shift_sample]

theorem simRun_no_stop (step : State6 → State6) (dt : ℝ) (s0 : State6) :
    ∀ (fuel i : ℕ) (s : State6) (ly : ℝ), 1 ≤ i →
      s = stateSeq step s0 (i - 1) → ly = (stateSeq step s0 (i - 1)).y →
      (∀ j, i ≤ j → j < i + fuel → ¬ stopCond step s0 j) →
      simRun step dt true fuel i s ly =
        (List.range fuel).map
          (fun k => (((i + k : ℕ) : ℝ) * dt, stateSeq step s0 (i + k))) := by
  intro fuel
  induction fuel with
  | zero =>
    intro i s ly hi hs hly hno
    simp [simRun]
  | succ fuel ih =>
    intro i s ly hi hs hly hno
    subst hs
    subst hly
    have hstep : step (stateSeq step s0 (i - 1)) = stateSeq step s0 i := by
      have h2 : i - 1 + 1 = i := Nat.succ_pred_eq_of_pos hi
      calc step (stateSeq step s0 (i - 1)) = stateSeq step s0 (i - 1 + 1) := rfl
        _ = stateSeq step s0 i := by rw [h2]
    have hcond : ¬ (True ∧ 5 < i ∧ (step (stateSeq step s0 (i - 1))).y < 0 ∧
        (step (stateSeq step s0 (i - 1))).y - (stateSeq step s0 (i - 1)).y < 0) := by
      rintro ⟨-, h5, hy, hd⟩
      exact hno i le_rfl (by omega) ⟨h5, hstep ▸ hy, hstep ▸ hd⟩
    simp only [simRun]
    rw [if_neg hcond]
    rw [ih (i + 1) (step (stateSeq step s0 (i - 1)))
      ((step (stateSeq step s0 (i - 1))).y) (by omega)
      (by rw [hstep, Nat.add_sub_cancel]) (by rw [hstep, Nat.add_sub_cancel])
      (fun j h1 h2 => hno j (by omega) (by omega))]
    rw [hstep, ← range_map_shift_sample]

theorem simRun_stop_at (step : State6 → State6) (dt : ℝ) (s0 : State6) :
    ∀ (fuel i : ℕ) (s : State6) (ly : ℝ), 1 ≤ i →
      s = stateSeq step s0 (i - 1) → ly = (stateSeq step s0 (i - 1)).y →
      ∀ j0, i ≤ j0 → j0 < i + fuel → stopCond step s0 j0 →
      (∀ j, i ≤ j → j < j0 → ¬ stopCond step s0 j) →
      simRun step dt true fuel i s ly =
        (List.range (j0 - i + 1)).map
          (fun k => (((i + k : ℕ) : ℝ) * dt, stateSeq step s0 (i + k))) := by
  intro fuel
  induction fuel with
  | zero =>
    intro i s ly hi hs hly j0 hj1 hj2 hstop hno
    omega
  | succ fuel ih =>
    intro i s ly hi hs hly j0 hj1 hj2 hstop hno
    subst hs
    subst hly
    have hstep : step (stateSeq step s0 (i - 1)) = stateSeq step s0 i := by
      have h2 : i - 1 + 1 = i := Nat.succ_pred_eq_of_pos hi
      calc step (stateSeq step s0 (i - 1)) = stateSeq step s0 (i - 1 + 1) := rfl
        _ = stateSeq step s0 i := by rw [h2]
    simp only [simRun]
    rcases Nat.lt_or_ge i j0 with hlt | hge
    · have hcond : ¬ (True ∧ 5 < i ∧ (step (stateSeq step s0 (i - 1))).y < 0 ∧
          (step (stateSeq step s0 (i - 1))).y - (stateSeq step s0 (i - 1)).y < 0) := by
        rintro ⟨-, h5, hy, hd⟩
        exact hno i le_rfl hlt ⟨h5, hstep ▸ hy, hstep ▸ hd⟩
      rw [if_neg hcond]
      rw [ih (i + 1) (step (stateSeq step s0 (i - 1)))
        ((step (stateSeq step s0 (i - 1))).y) (by omega)
        (by rw [hstep, Nat.add_sub_cancel]) (by rw [hstep, Nat.add_sub_cancel])
        j0 (by omega) (by omega) hstop (fun j ha hb => hno j (by omega) hb)]
      rw [hstep, ← range_map_shift_sample,
        show j0 - (i + 1) + 1 + 1 = j0 - i + 1 by omega]
    · have hij : i = j0 := by omega
      subst hij
      obtain ⟨h5, hy, hd⟩ := hstop
      have hcond : (True ∧ 5 < i ∧ (step (stateSeq step s0 (i - 1))).y < 0 ∧
          (step (stateSeq step s0 (i - 1))).y - (stateSeq step s0 (i - 1)).y < 0) :=
        ⟨trivial, h5, hstep ▸ hy, hstep ▸ hd⟩
      rw [if_pos hcond]
      rw [hstep, show i - i + 1 = 1 by omega, range_one_map_sample]

theorem range_map_zero_shift {α : Type} (n : ℕ) (f : ℕ → α) :
    (List.range (n + 1)).map f = f 0 :: (List.range n).map (fun k => f (1 + k)) := by
  rw [List.range_succ_eq_map, List.map_cons, List.map_map]
  refine congrArg₂ _ rfl ?_
  have hc : (f ∘ Nat.succ) = fun k => f (1 + k) := by
    funext k
    show f (k + 1) = f (1 + k)
    exact congrArg f (by omega)
  rw [hc]

theorem simulate_rk4_unfold (g v0 elev_rad mass air_drag : ℝ)
    (wind_ff : ℝ × ℝ × ℝ) (dt ttl : ℝ) (sog : Bool) :
    simulate_rk4 g v0 elev_rad mass air_drag wind_ff dt ttl sog =
      ⟨0 :: (simRun (rk4Step g wind_ff air_drag mass dt) dt sog
          ((max 1 ⌈ttl / dt⌉).toNat) 1
          ⟨0, 0, 0, v0 * Real.cos elev_rad, v0 * Real.sin elev_rad, 0⟩ 0).map Prod.fst,
       0 :: (simRun (rk4Step g wind_ff air_drag mass dt) dt sog
          ((max 1 ⌈ttl / dt⌉).toNat) 1
          ⟨0, 0, 0, v0 * Real.cos elev_rad, v0 * Real.sin elev_rad, 0⟩ 0).map (fun p => p.2.x),
       0 :: (simRun (rk4Step g wind_ff air_drag mass dt) dt sog
          ((max 1 ⌈ttl / dt⌉).toNat) 1
          ⟨0, 0, 0, v0 * Real.cos elev_rad, v0 * Real.sin elev_rad, 0⟩ 0).map (fun p => p.2.y),
       0 :: (simRun (rk4Step g wind_ff air_drag mass dt) dt sog
          ((max 1 ⌈ttl / dt⌉).toNat) 1
          ⟨0, 0, 0, v0 * Real.cos elev_rad, v0 * Real.sin elev_rad, 0⟩ 0).map (fun p => p.2.z)⟩ :=
  rfl

theorem nmax_pos (dt ttl : ℝ) : 1 ≤ ((max 1 ⌈ttl / dt⌉).toNat) :=
  Int.toNat_le_toNat (le_max_left 1 ⌈ttl / dt⌉)

/-- C10: for a positive integration step, `simulate_rk4` returns a
trajectory whose four arrays have equal length of at least 2 (the launch
sample plus at least one integration step), in particular never an empty
time array. -/
theorem simulate_rk4_array_lengths (g v0 elev_rad mass air_drag : ℝ)
    (wind_ff : ℝ × ℝ × ℝ) (dt ttl : ℝ) (sog : Bool) (hdt : 0 < dt) :
    ∀ tr, tr = simulate_rk4 g v0 elev_rad mass air_drag wind_ff dt ttl sog →
      tr.t.length = tr.x.length ∧ tr.t.length = tr.y.length ∧
      tr.t.length = tr.z.length ∧ 2 ≤ tr.t.length ∧ tr.t ≠ [] := by
  intro tr htr
  subst htr
  rw [simulate_rk4_unfold]
  have hpos := simRun_length_pos (rk4Step g wind_ff air_drag mass dt) dt sog
    ((max 1 ⌈ttl / dt⌉).toNat) 1
    ⟨0, 0, 0, v0 * Real.cos elev_rad, v0 * Real.sin elev_rad, 0⟩ 0
    (nmax_pos dt ttl)
  refine ⟨by simp, by simp, by simp, ?_, by simp⟩
  simp only [List.length_cons, List.length_map]
  omega

/-- Witness for C10 at a concrete call. -/
theorem simulate_rk4_array_lengths_witness :
    2 ≤ (simulate_rk4 0 0 0 1 0 (0, 0, 0) 1 1 true).t.length :=
  (simulate_rk4_array_lengths 0 0 0 1 0 (0, 0, 0) 1 1 true zero_lt_one
    _ rfl).2.2.2.1

/-- C1: with `stop_on_ground` set and a positive step, the integrator takes
at most `ceil(ttl/dt)` steps (minimum 1); the altitude array follows the RK4
state sequence; the trajectory is truncated at the first step index
exceeding 5 whose altitude is below zero and decreased from the previous
step; and when no such index exists within the budget the trajectory keeps
its full length of the step budget plus the launch sample. -/
theorem simulate_rk4_ground_stop (g v0 elev_rad mass air_drag : ℝ)
    (wind_ff : ℝ × ℝ × ℝ) (dt ttl : ℝ) (hdt : 0 < dt) :
    ∀ stp s0 nmax tr,
      stp = rk4Step g wind_ff air_drag mass dt →
      s0 = (⟨0, 0, 0, v0 * Real.cos elev_rad, v0 * Real.sin elev_rad, 0⟩ : State6) →
      nmax = ((max 1 ⌈ttl / dt⌉).toNat : ℕ) →
      tr = simulate_rk4 g v0 elev_rad mass air_drag wind_ff dt ttl true →
      1 ≤ nmax ∧ tr.t.length ≤ nmax + 1 ∧
      tr.y = (List.range tr.t.length).map (fun j => (stateSeq stp s0 j).y) ∧
      (∀ i0, i0 ≤ nmax → stopCond stp s0 i0 →
        (∀ j, j < i0 → ¬ stopCond stp s0 j) → tr.t.length = i0 + 1) ∧
      ((∀ j, j ≤ nmax → ¬ stopCond stp s0 j) → tr.t.length = nmax + 1) := by
  intro stp s0 nmax tr hstp hs0 hnmax htr
  subst hstp
  subst hs0
  subst hnmax
  subst htr
  obtain ⟨n, hn, heq⟩ := simRun_shape (rk4Step g wind_ff air_drag mass dt) dt
    ⟨0, 0, 0, v0 * Real.cos elev_rad, v0 * Real.sin elev_rad, 0⟩
    ((max 1 ⌈ttl / dt⌉).toNat) 1
    ⟨0, 0, 0, v0 * Real.cos elev_rad, v0 * Real.sin elev_rad, 0⟩ 0 le_rfl rfl rfl
  refine ⟨nmax_pos dt ttl, ?_, ?_, ?_, ?_⟩
  · rw [simulate_rk4_unfold]
    simp only [Trajectory.mk.injEq, List.length_cons, List.length_map]
    rw [heq]
    simp only [List.length_map, List.length_range]
    omega
  · rw [simulate_rk4_unfold]
    simp only [heq, List.length_cons, List.length_map, List.length_range,
      List.map_map]
    rw [range_map_zero_shift]
    simp
    rfl
  · intro i0 hi0 hstop hno
    have h1 : 1 ≤ i0 := by
      have := hstop.1
      omega
    have heq2 := simRun_stop_at (rk4Step g wind_ff air_drag mass dt) dt
      ⟨0, 0, 0, v0 * Real.cos elev_rad, v0 * Real.sin elev_rad, 0⟩
      ((max 1 ⌈ttl / dt⌉).toNat) 1
      ⟨0, 0, 0, v0 * Real.cos elev_rad, v0 * Real.sin elev_rad, 0⟩ 0 le_rfl rfl rfl
      i0 h1 (by omega) hstop (fun j hj1 hj2 => hno j hj2)
    rw [simulate_rk4_unfold]
    simp only [heq2, List.length_cons, List.length_map, List.length_range]
    omega
  · intro hno
    have heq2 := simRun_no_stop (rk4Step g wind_ff air_drag mass dt) dt
      ⟨0, 0, 0, v0 * Real.cos elev_rad, v0 * Real.sin elev_rad, 0⟩
      ((max 1 ⌈ttl / dt⌉).toNat) 1
      ⟨0, 0, 0, v0 * Real.cos elev_rad, v0 * Real.sin elev_rad, 0⟩ 0 le_rfl rfl rfl
      (fun j hj1 hj2 => hno j (by omega))
    rw [simulate_rk4_unfold]
    simp only [heq2, List.length_cons, List.length_map, List.length_range]

/-- Witness for C1 at a concrete call. -/
theorem simulate_rk4_ground_stop_witness :
    1 ≤ ((max 1 ⌈(1 : ℝ) / 1⌉).toNat : ℕ) ∧
    (simulate_rk4 0 0 0 1 0 (0, 0, 0) 1 1 true).t.length ≤
      ((max 1 ⌈(1 : ℝ) / 1⌉).toNat : ℕ) + 1 := by
  have h := simulate_rk4_ground_stop 0 0 0 1 0 (0, 0, 0) 1 1 zero_lt_one
    _ _ _ _ rfl rfl rfl rfl
  exact ⟨h.1, h.2.1⟩

/-! ## Impact-range characterization (C2) -/

theorem findCrossAux_eq_none (l : List ℝ) :
    ∀ i, (∀ k, k + 1 < l.length → ¬(l.getD (k + 1) 0 ≤ 0 ∧ 0 < l.getD k 0)) →
      findCrossAux l i = none := by
  induction l with
  | nil => intro i h; rfl
  | cons y0 tl ih =>
    intro i h
    cases tl with
    | nil => rfl
    | cons y1 rest =>
      simp only [findCrossAux]
      rw [if_neg (by
        have := h 0 (by simp)
        simpa using this)]
      refine ih (i + 1) ?_
      intro k hk
      have := h (k + 1) (by simpa using Nat.succ_lt_succ hk)
      simpa [List.getD_cons_succ] using this

theorem findCrossAux_eq_some (l : List ℝ) :
    ∀ i k, k + 1 < l.length → (l.getD (k + 1) 0 ≤ 0 ∧ 0 < l.getD k 0) →
      (∀ k', k' < k → ¬(l.getD (k' + 1) 0 ≤ 0 ∧ 0 < l.getD k' 0)) →
      findCrossAux l i = some (i + k) := by
  induction l with
  | nil => intro i k hk; simp at hk
  | cons y0 tl ih =>
    intro i k hk hcross hmin
    cases tl with
    | nil => simp at hk
    | cons y1 rest =>
      cases k with
      | zero =>
        simp only [findCrossAux]
        rw [if_pos (by simpa using hcross)]
        simp
      | succ k' =>
        simp only [findCrossAux]
        rw [if_neg (by
          have := hmin 0 (Nat.succ_pos k')
          simpa using this)]
        have hres := ih (i + 1) k' (by simpa using Nat.lt_of_succ_lt_succ hk)
          (by simpa [List.getD_cons_succ] using hcross)
          (fun k'' hk'' => by
            have := hmin (k'' + 1) (Nat.succ_lt_succ hk'')
            simpa [List.getD_cons_succ] using this)
        rw [hres]
        exact congrArg some (by omega)

theorem getLastD_of_length_one (l : List ℝ) (h : l.length = 1) :
    l.getLastD 0 = l.getD 0 0 := by
  cases l with
  | nil => simp at h
  | cons a tl =>
    cases tl with
    | nil => rfl
    | cons b tl2 => simp at h

/-- C2: `impact_range` returns zero for an empty trajectory and the single
sample's range/time for a one-sample trajectory; at the first downward
altitude crossing (previous altitude above zero, current at or below zero)
it linearly interpolates range and time with the fraction
`a = (0 - y0)/(y1 - y0)` guarded against a zero denominator; and when no
crossing exists it falls back to the final range and time. -/
theorem impact_range_spec (tr : Trajectory)
    (hlx : tr.x.length = tr.y.length) (hlt : tr.t.length = tr.y.length) :
    (tr.y.length = 0 → impact_range tr = (0, 0)) ∧
    (tr.y.length = 1 → impact_range tr = (tr.x.getD 0 0, tr.t.getD 0 0)) ∧
    (∀ i, 0 < i → i < tr.y.length →
      (tr.y.getD i 0 ≤ 0 ∧ 0 < tr.y.getD (i - 1) 0) →
      (∀ j, 0 < j → j < i → ¬(tr.y.getD j 0 ≤ 0 ∧ 0 < tr.y.getD (j - 1) 0)) →
      impact_range tr =
        (tr.x.getD (i - 1) 0 +
          (if tr.y.getD i 0 - tr.y.getD (i - 1) 0 ≠ 0 then
            (0 - tr.y.getD (i - 1) 0) / (tr.y.getD i 0 - tr.y.getD (i - 1) 0)
           else 0) * (tr.x.getD i 0 - tr.x.getD (i - 1) 0),
         tr.t.getD (i - 1) 0 +
          (if tr.y.getD i 0 - tr.y.getD (i - 1) 0 ≠ 0 then
            (0 - tr.y.getD (i - 1) 0) / (tr.y.getD i 0 - tr.y.getD (i - 1) 0)
           else 0) * (tr.t.getD i 0 - tr.t.getD (i - 1) 0))) ∧
    (2 ≤ tr.y.length →
      (∀ i, 0 < i → i < tr.y.length →
        ¬(tr.y.getD i 0 ≤ 0 ∧ 0 < tr.y.getD (i - 1) 0)) →
      impact_range tr = (tr.x.getLastD 0, tr.t.getLastD 0)) := by
  refine ⟨?_, ?_, ?_, ?_⟩
  · intro h0
    have hx : tr.x = [] := List.length_eq_zero.mp (by omega)
    have ht : tr.t = [] := List.length_eq_zero.mp (by omega)
    simp only [impact_range]
    rw [if_pos (by omega)]
    rw [hx, ht]
    rfl
  · intro h1
    simp only [impact_range]
    rw [if_pos (by omega)]
    rw [getLastD_of_length_one tr.x (by omega), getLastD_of_length_one tr.t (by omega)]
  · intro i hi0 hilen hcross hmin
    have hfc : findCross tr.y = some i := by
      have hres := findCrossAux_eq_some tr.y 1 (i - 1) (by omega)
        (by rw [show i - 1 + 1 = i by omega]; exact hcross)
        (fun k' hk' => by
          have := hmin (k' + 1) (Nat.succ_pos k') (by omega)
          simpa using this)
      rw [findCross, hres]
      exact congrArg some (by omega)
    simp only [impact_range]
    rw [if_neg (by omega), hfc]
  · intro hlen hno
    have hfc : findCross tr.y = none := by
      refine findCrossAux_eq_none tr.y 1 ?_
      intro k hk
      have := hno (k + 1) (Nat.succ_pos k) (by omega)
      simpa using this
    simp only [impact_range]
    rw [if_neg (by omega), hfc]

/-- Witness for C2: a two-sample trajectory crossing between altitude 1 and
-1 lands halfway, at range 5 and time one half. -/
theorem impact_range_spec_witness :
    impact_range ⟨[0, 1], [0, 10], [1, -1], [0, 0]⟩ = (5, 1 / 2) := by
  have h := (impact_range_spec ⟨[0, 1], [0, 10], [1, -1], [0, 0]⟩ rfl rfl).2.2.1 1
    Nat.one_pos (by simp)
    (by constructor <;> norm_num [List.getD_cons_zero, List.getD_cons_succ])
    (by omega)
  rw [h]
  norm_num [List.getD_cons_zero, List.getD_cons_succ]

/-! ## Closest-approach characterization (C3) -/

theorem argminAux_spec : ∀ (l : List ℝ) (bi : ℕ) (bv : ℝ) (i : ℕ),
    (argminAux l bi bv i = bi ∧ ∀ k, k < l.length → bv ≤ l.getD k 0) ∨
    (∃ k, k < l.length ∧ argminAux l bi bv i = i + k ∧
      l.getD k 0 < bv ∧ (∀ k', k' < l.length → l.getD k 0 ≤ l.getD k' 0) ∧
      (∀ k', k' < k → l.getD k 0 < l.getD k' 0)) := by
  intro l
  induction l with
  | nil =>
    intro bi bv i
    exact Or.inl ⟨rfl, fun k hk => by simp at hk⟩
  | cons v rest ih =>
    intro bi bv i
    by_cases hv : v < bv
    · simp only [argminAux, if_pos hv]
      rcases ih i v (i + 1) with ⟨h1, h2⟩ | ⟨k, hk, hres, hlt, hmin, hfirst⟩
      · refine Or.inr ⟨0, by simp, by rw [h1]; omega, by simpa using hv, ?_, ?_⟩
        · intro k' hk'
          cases k' with
          | zero => simp
          | succ j =>
            simp only [List.getD_cons_zero, List.getD_cons_succ]
            exact h2 j (by simpa using hk')
        · intro k' hk'
          omega
      · refine Or.inr ⟨k + 1, by simpa using hk, by rw [hres]; omega, ?_, ?_, ?_⟩
        · simp only [List.getD_cons_succ]
          exact lt_trans hlt hv
        · intro k' hk'
          cases k' with
          | zero =>
            simp only [List.getD_cons_zero, List.getD_cons_succ]
            exact le_of_lt hlt
          | succ j =>
            simp only [List.getD_cons_succ]
            exact hmin j (by simpa using hk')
        · intro k' hk'
          cases k' with
          | zero =>
            simp only [List.getD_cons_zero, List.getD_cons_succ]
            exact hlt
          | succ j =>
            simp only [List.getD_cons_succ]
            exact hfirst j (by omega)
    · simp only [argminAux, if_neg hv]
      rcases ih bi bv (i + 1) with ⟨h1, h2⟩ | ⟨k, hk, hres, hlt, hmin, hfirst⟩
      · refine Or.inl ⟨h1, ?_⟩
        intro k hk
        cases k with
        | zero => simpa using le_of_not_lt hv
        | succ j =>
          simp only [List.getD_cons_succ]
          exact h2 j (by simpa using hk)
      · refine Or.inr ⟨k + 1, by simpa using hk, by rw [hres]; omega, ?_, ?_, ?_⟩
        · simp only [List.getD_cons_succ]
          exact hlt
        · intro k' hk'
          cases k' with
          | zero =>
            simp only [List.getD_cons_zero, List.getD_cons_succ]
            exact le_trans (le_of_lt hlt) (le_of_not_lt hv)
          | succ j =>
            simp only [List.getD_cons_succ]
            exact hmin j (by simpa using hk')
        · intro k' hk'
          cases k' with
          | zero =>
            simp only [List.getD_cons_zero, List.getD_cons_succ]
            exact lt_of_lt_of_le hlt (le_of_not_lt hv)
          | succ j =>
            simp only [List.getD_cons_succ]
            exact hfirst j (by omega)

theorem argminIdx_spec (l : List ℝ) (hne : l ≠ []) :
    argminIdx l < l.length ∧
    (∀ j, j < l.length → l.getD (argminIdx l) 0 ≤ l.getD j 0) ∧
    (∀ j, j < argminIdx l → l.getD (argminIdx l) 0 < l.getD j 0) := by
  cases l with
  | nil => exact absurd rfl hne
  | cons v rest =>
    simp only [argminIdx]
    rcases argminAux_spec rest 0 v 1 with ⟨h1, h2⟩ | ⟨k, hk, hres, hlt, hmin, hfirst⟩
    · rw [h1]
      refine ⟨by simp, ?_, ?_⟩
      · intro j hj
        cases j with
        | zero => simp
        | succ j' =>
          simp only [List.getD_cons_zero, List.getD_cons_succ]
          exact h2 j' (by simpa using hj)
      · intro j hj
        omega
    · rw [hres]
      refine ⟨by simp only [List.length_cons]; omega, ?_, ?_⟩
      · intro j hj
        have hidx : (v :: rest).getD (1 + k) 0 = rest.getD k 0 := by
          rw [show 1 + k = k + 1 by omega]
          simp
        rw [hidx]
        cases j with
        | zero => exact le_of_lt hlt
        | succ j' =>
          simp only [List.getD_cons_succ]
          exact hmin j' (by simpa using hj)
      · intro j hj
        have hidx : (v :: rest).getD (1 + k) 0 = rest.getD k 0 := by
          rw [show 1 + k = k + 1 by omega]
          simp
        rw [hidx]
        cases j with
        | zero => exact hlt
        | succ j' =>
          simp only [List.getD_cons_succ]
          exact hfirst j' (by omega)

theorem d2list_getD (tx ty tz : ℝ) :
    ∀ (xs ys zs : List ℝ) (j : ℕ), j < xs.length → j < ys.length → j < zs.length →
    (d2list tx ty tz xs ys zs).getD j 0 =
      (xs.getD j 0 - tx) ^ 2 + (ys.getD j 0 - ty) ^ 2 + (zs.getD j 0 - tz) ^ 2 := by
  intro xs
  induction xs with
  | nil => intro ys zs j h1 _ _; simp at h1
  | cons x xs ih =>
    intro ys zs j h1 h2 h3
    cases ys with
    | nil => simp at h2
    | cons y ys =>
      cases zs with
      | nil => simp at h3
      | cons z zs =>
        cases j with
        | zero =>
          simp only [d2list, List.getD_cons_zero]
          ring
        | succ j' =>
          simp only [d2list, List.getD_cons_succ]
          exact ih ys zs j' (by simpa using h1) (by simpa using h2) (by simpa using h3)

theorem d2list_length (tx ty tz : ℝ) :
    ∀ (xs ys zs : List ℝ), ys.length = xs.length → zs.length = xs.length →
      (d2list tx ty tz xs ys zs).length = xs.length := by
  intro xs
  induction xs with
  | nil =>
    intro ys zs h1 h2
    cases ys with
    | nil =>
      cases zs with
      | nil => rfl
      | cons _ _ => simp at h2
    | cons _ _ => simp at h1
  | cons x xs ih =>
    intro ys zs h1 h2
    cases ys with
    | nil => simp at h1
    | cons y ys =>
      cases zs with
      | nil => simp at h2
      | cons z zs =>
        simp only [d2list, List.length_cons]
        rw [ih ys zs (by simpa using h1) (by simpa using h2)]

/-- C3: on a non-empty trajectory, `closest_approach` returns a sample
whose squared Euclidean distance to the target is minimal over all samples
together with the Euclidean miss magnitude at that sample, the earliest
such sample when several attain the minimum. -/
theorem closest_approach_spec (tr : Trajectory) (tx ty tz : ℝ)
    (hne : tr.x ≠ []) (hly : tr.y.length = tr.x.length)
    (hlz : tr.z.length = tr.x.length) :
    ∃ idx, idx < tr.x.length ∧
      closest_approach tr tx ty tz =
        (tr.x.getD idx 0, tr.y.getD idx 0, tr.z.getD idx 0,
          Real.sqrt ((tr.x.getD idx 0 - tx) ^ 2 + (tr.y.getD idx 0 - ty) ^ 2 +
            (tr.z.getD idx 0 - tz) ^ 2)) ∧
      (∀ j, j < tr.x.length →
        (tr.x.getD idx 0 - tx) ^ 2 + (tr.y.getD idx 0 - ty) ^ 2 +
            (tr.z.getD idx 0 - tz) ^ 2 ≤
          (tr.x.getD j 0 - tx) ^ 2 + (tr.y.getD j 0 - ty) ^ 2 +
            (tr.z.getD j 0 - tz) ^ 2) ∧
      (∀ j, j < idx →
        (tr.x.getD idx 0 - tx) ^ 2 + (tr.y.getD idx 0 - ty) ^ 2 +
            (tr.z.getD idx 0 - tz) ^ 2 <
          (tr.x.getD j 0 - tx) ^ 2 + (tr.y.getD j 0 - ty) ^ 2 +
            (tr.z.getD j 0 - tz) ^ 2) := by
  have hlen := d2list_length tx ty tz tr.x tr.y tr.z hly hlz
  have hne2 : d2list tx ty tz tr.x tr.y tr.z ≠ [] := by
    intro h
    rw [h] at hlen
    simp only [List.length_nil] at hlen
    exact hne (List.length_eq_zero.mp hlen.symm)
  obtain ⟨hlt, hmin, hfirst⟩ := argminIdx_spec _ hne2
  refine ⟨argminIdx (d2list tx ty tz tr.x tr.y tr.z), by omega, ?_, ?_, ?_⟩
  · have hd2 := d2list_getD tx ty tz tr.x tr.y tr.z
      (argminIdx (d2list tx ty tz tr.x tr.y tr.z)) (by omega) (by omega) (by omega)
    simp only [closest_approach]
    rw [hd2]
  · intro j hj
    have h1 := d2list_getD tx ty tz tr.x tr.y tr.z
      (argminIdx (d2list tx ty tz tr.x tr.y tr.z)) (by omega) (by omega) (by omega)
    have h2 := d2list_getD tx ty tz tr.x tr.y tr.z j (by omega) (by omega) (by omega)
    rw [← h1, ← h2]
    exact hmin j (by omega)
  · intro j hj
    have h1 := d2list_getD tx ty tz tr.x tr.y tr.z
      (argminIdx (d2list tx ty tz tr.x tr.y tr.z)) (by omega) (by omega) (by omega)
    have h2 := d2list_getD tx ty tz tr.x tr.y tr.z j (by omega) (by omega) (by omega)
    rw [← h1, ← h2]
    exact hfirst j hj

/-- Witness for C3 at a concrete trajectory and target. -/
theorem closest_approach_spec_witness :
    ∃ idx, idx < ([0, 3] : List ℝ).length ∧
      closest_approach ⟨[0, 1], [0, 3], [0, 4], [0, 0]⟩ 3 4 0 =
        (([0, 3] : List ℝ).getD idx 0, ([0, 4] : List ℝ).getD idx 0,
          ([0, 0] : List ℝ).getD idx 0,
          Real.sqrt ((([0, 3] : List ℝ).getD idx 0 - 3) ^ 2 +
            (([0, 4] : List ℝ).getD idx 0 - 4) ^ 2 +
            (([0, 0] : List ℝ).getD idx 0 - 0) ^ 2)) ∧
      (∀ j, j < ([0, 3] : List ℝ).length →
        (([0, 3] : List ℝ).getD idx 0 - 3) ^ 2 +
            (([0, 4] : List ℝ).getD idx 0 - 4) ^ 2 +
            (([0, 0] : List ℝ).getD idx 0 - 0) ^ 2 ≤
          (([0, 3] : List ℝ).getD j 0 - 3) ^ 2 +
            (([0, 4] : List ℝ).getD j 0 - 4) ^ 2 +
            (([0, 0] : List ℝ).getD j 0 - 0) ^ 2) ∧
      (∀ j, j < idx →
        (([0, 3] : List ℝ).getD idx 0 - 3) ^ 2 +
            (([0, 4] : List ℝ).getD idx 0 - 4) ^ 2 +
            (([0, 0] : List ℝ).getD idx 0 - 0) ^ 2 <
          (([0, 3] : List ℝ).getD j 0 - 3) ^ 2 +
            (([0, 4] : List ℝ).getD j 0 - 4) ^ 2 +
            (([0, 0] : List ℝ).getD j 0 - 0) ^ 2) :=
  closest_approach_spec ⟨[0, 1], [0, 3], [0, 4], [0, 0]⟩ 3 4 0 (by simp) rfl rfl

/-! ## Brute-force solver lemmas (C4, C5, C6) -/

/-- A running best is either absent or carries a nonnegative total miss. -/
def optNonneg (b : Option ShotResult) : Prop :=
  ∀ x, b = some x → 0 ≤ x.miss_total_m

theorem cand_miss_nonneg (g mass air_drag : ℝ) (req : SolveRequest)
    (v0 : ℝ) (cid : ℤ) (em : ℝ) :
    0 ≤ (cand g mass air_drag req v0 cid em).miss_total_m :=
  Real.sqrt_nonneg _

theorem cand_charge (g mass air_drag : ℝ) (req : SolveRequest)
    (v0 : ℝ) (cid : ℤ) (em : ℝ) :
    (cand g mass air_drag req v0 cid em).charge = cid := rfl

/-- The muzzle velocity the loops compute for a charge id, as a total
function (meaningful whenever the id is in the catalog). -/
noncomputable def v0val (w : Weapon) (cid : ℤ) : ℝ :=
  w.base_speed * ((dictLookup cid w.charges).getD 0)

theorem v0val_eq (w : Weapon) (cid : ℤ) (v0 : ℝ)
    (h : w.v0_for_charge cid = .ok v0) : v0val w cid = v0 := by
  unfold Weapon.v0_for_charge at h
  unfold v0val
  cases hl : dictLookup cid w.charges with
  | none => rw [hl] at h; cases h
  | some m =>
    rw [hl] at h
    cases h
    rfl

theorem v0_for_charge_ok (w : Weapon) (cid : ℤ) (h : cid ∈ dictKeys w.charges) :
    ∃ v0, w.v0_for_charge cid = .ok v0 := by
  obtain ⟨m, hm⟩ := dictLookup_isSome w.charges cid h
  exact ⟨w.base_speed * m, by unfold Weapon.v0_for_charge; rw [hm]⟩

/-- The evaluated candidate a trace entry stands for. -/
noncomputable def candAt (g mass air_drag : ℝ) (req : SolveRequest)
    (w : Weapon) (p : ℤ × ℝ) : ShotResult :=
  cand g mass air_drag req (v0val w p.1) p.1 p.2

theorem elevLoop_spec (g mass air_drag : ℝ) (req : SolveRequest) (v0 : ℝ)
    (cid : ℤ) : ∀ (elevs : List ℝ) (best : Option ShotResult) (r : ShotResult),
    elevLoop g mass air_drag req v0 cid elevs best = some r →
    (best = some r ∨ ∃ em, em ∈ elevs ∧ r = cand g mass air_drag req v0 cid em) ∧
    (∀ em, em ∈ elevs →
      r.miss_total_m ≤ (cand g mass air_drag req v0 cid em).miss_total_m) ∧
    (∀ b, best = some b → r.miss_total_m ≤ b.miss_total_m) := by
  intro elevs
  induction elevs with
  | nil =>
    intro best r h
    refine ⟨Or.inl h, fun em hem => absurd hem (List.not_mem_nil em), ?_⟩
    intro b hb
    rw [hb] at h
    cases h
    exact le_rfl
  | cons em rest ih =>
    intro best r h
    simp only [elevLoop] at h
    cases best with
    | none =>
      obtain ⟨hprov, hmin, hb⟩ := ih (some (cand g mass air_drag req v0 cid em)) r h
      refine ⟨?_, ?_, ?_⟩
      · rcases hprov with hp | ⟨em', hem', hr⟩
        · exact Or.inr ⟨em, List.mem_cons_self em rest, (Option.some.injEq .. ▸ hp).symm ▸ rfl⟩
        · exact Or.inr ⟨em', List.mem_cons_of_mem em hem', hr⟩
      · intro em' hem'
        rcases List.mem_cons.mp hem' with he | he
        · rw [he]
          exact hb _ rfl
        · exact hmin em' he
      · intro b hb'
        cases hb'
    | some b =>
      have h' : elevLoop g mass air_drag req v0 cid rest
          (if (cand g mass air_drag req v0 cid em).miss_total_m < b.miss_total_m
           then some (cand g mass air_drag req v0 cid em) else some b) = some r := h
      by_cases hlt : (cand g mass air_drag req v0 cid em).miss_total_m < b.miss_total_m
      · rw [if_pos hlt] at h'
        obtain ⟨hprov, hmin, hble⟩ := ih (some (cand g mass air_drag req v0 cid em)) r h' 
        refine ⟨?_, ?_, ?_⟩
        · rcases hprov with hp | ⟨em', hem', hr⟩
          · exact Or.inr ⟨em, List.mem_cons_self em rest, (Option.some.injEq .. ▸ hp).symm ▸ rfl⟩
          · exact Or.inr ⟨em', List.mem_cons_of_mem em hem', hr⟩
        · intro em' hem'
          rcases List.mem_cons.mp hem' with he | he
          · rw [he]
            exact hble _ rfl
          · exact hmin em' he
        · intro b' hb'
          cases hb'
          exact le_trans (hble _ rfl) (le_of_lt hlt)
      · rw [if_neg hlt] at h'
        obtain ⟨hprov, hmin, hble⟩ := ih (some b) r h'
        refine ⟨?_, ?_, ?_⟩
        · rcases hprov with hp | ⟨em', hem', hr⟩
          · exact Or.inl hp
          · exact Or.inr ⟨em', List.mem_cons_of_mem em hem', hr⟩
        · intro em' hem'
          rcases List.mem_cons.mp hem' with he | he
          · rw [he]
            exact le_trans (hble _ rfl) (le_of_not_lt hlt)
          · exact hmin em' he
        · intro b' hb'
          cases hb'
          exact hble _ rfl

theorem elevLoop_some_of_some (g mass air_drag : ℝ) (req : SolveRequest)
    (v0 : ℝ) (cid : ℤ) : ∀ (elevs : List ℝ) (b : ShotResult),
    ∃ r, elevLoop g mass air_drag req v0 cid elevs (some b) = some r := by
  intro elevs
  induction elevs with
  | nil => intro b; exact ⟨b, rfl⟩
  | cons em rest ih =>
    intro b
    simp only [elevLoop]
    split
    · exact ih _
    · exact ih _

theorem elevLoop_some_of_ne_nil (g mass air_drag : ℝ) (req : SolveRequest)
    (v0 : ℝ) (cid : ℤ) (elevs : List ℝ) (best : Option ShotResult)
    (hne : elevs ≠ []) :
    ∃ r, elevLoop g mass air_drag req v0 cid elevs best = some r := by
  cases elevs with
  | nil => exact absurd rfl hne
  | cons em rest =>
    cases best with
    | none =>
      simp only [elevLoop]
      exact elevLoop_some_of_some g mass air_drag req v0 cid rest _
    | some b =>
      simp only [elevLoop]
      split
      · exact elevLoop_some_of_some g mass air_drag req v0 cid rest _
      · exact elevLoop_some_of_some g mass air_drag req v0 cid rest _

theorem elevLoop_optNonneg (g mass air_drag : ℝ) (req : SolveRequest)
    (v0 : ℝ) (cid : ℤ) (elevs : List ℝ) (best : Option ShotResult)
    (hb : optNonneg best) :
    optNonneg (elevLoop g mass air_drag req v0 cid elevs best) := by
  intro x hx
  obtain ⟨hprov, _, _⟩ := elevLoop_spec g mass air_drag req v0 cid elevs best x hx
  rcases hprov with hp | ⟨em, _, hr⟩
  · exact hb x hp
  · rw [hr]
    exact cand_miss_nonneg g mass air_drag req v0 cid em

theorem bandLoop_fired (g mass air_drag : ℝ) (req : SolveRequest) (v0 : ℝ)
    (cid : ℤ) : ∀ (bs : List (ℝ × ℝ)) (best best' : Option ShotResult),
    bandLoop g mass air_drag req v0 cid bs best = (best', true) →
    ∃ r, best' = some r ∧ r.miss_total_m ≤ req.tolerance_m := by
  intro bs
  induction bs with
  | nil =>
    intro best best' h
    rw [bandLoop, Prod.mk.injEq] at h
    exact absurd h.2 (by simp)
  | cons b0 rest ih =>
    obtain ⟨emin, emax⟩ := b0
    intro best best' h
    simp only [bandLoop] at h
    cases hE : elevLoop g mass air_drag req v0 cid
        (arangeList emin (emax + 1e-6) 25) best with
    | none =>
      rw [hE] at h
      replace h : bandLoop g mass air_drag req v0 cid rest none = (best', true) := h
      exact ih _ _ h
    | some b =>
      rw [hE] at h
      replace h : (if b.miss_total_m ≤ req.tolerance_m
          then ((some b : Option ShotResult), true)
          else bandLoop g mass air_drag req v0 cid rest (some b)) =
            (best', true) := h
      by_cases htol : b.miss_total_m ≤ req.tolerance_m
      · rw [if_pos htol, Prod.mk.injEq] at h
        exact ⟨b, h.1.symm, htol⟩
      · rw [if_neg htol] at h
        exact ih _ _ h

theorem elevLoop_none_inv (g mass air_drag : ℝ) (req : SolveRequest) (v0 : ℝ)
    (cid : ℤ) (elevs : List ℝ) (best : Option ShotResult)
    (h : elevLoop g mass air_drag req v0 cid elevs best = none) :
    best = none ∧ elevs = [] := by
  constructor
  · cases hb : best with
    | none => rfl
    | some b =>
      obtain ⟨r, hr⟩ := elevLoop_some_of_some g mass air_drag req v0 cid elevs b
      rw [hb] at h
      rw [hr] at h
      cases h
  · by_cases he : elevs = []
    · exact he
    · obtain ⟨r, hr⟩ := elevLoop_some_of_ne_nil g mass air_drag req v0 cid elevs best he
      rw [hr] at h
      cases h

theorem bandLoop_not_fired (g mass air_drag : ℝ) (req : SolveRequest) (v0 : ℝ)
    (cid : ℤ) : ∀ (bs : List (ℝ × ℝ)) (best best' : Option ShotResult),
    bandLoop g mass air_drag req v0 cid bs best = (best', false) →
    (∀ rr, best' = some rr →
      (∀ b, b ∈ bs → ∀ em, em ∈ bandElevs b →
        rr.miss_total_m ≤ (cand g mass air_drag req v0 cid em).miss_total_m) ∧
      (∀ b0, best = some b0 → rr.miss_total_m ≤ b0.miss_total_m)) ∧
    (best' = none → best = none ∧ ∀ b, b ∈ bs → bandElevs b = []) ∧
    (bs ≠ [] → best' = none ∨
      ∃ rr, best' = some rr ∧ req.tolerance_m < rr.miss_total_m) := by
  intro bs
  induction bs with
  | nil =>
    intro best best' h
    rw [bandLoop, Prod.mk.injEq] at h
    refine ⟨?_, ?_, fun hne => absurd rfl hne⟩
    · intro rr hrr
      refine ⟨fun b hb => absurd hb (List.not_mem_nil b), ?_⟩
      intro b0 hb0
      have hsome : some b0 = some rr := by rw [← hb0, h.1, hrr]
      cases hsome
      exact le_rfl
    · intro hn
      refine ⟨by rw [h.1, hn], fun b hb => absurd hb (List.not_mem_nil b)⟩
  | cons b0 rest ih =>
    obtain ⟨emin, emax⟩ := b0
    intro best best' h
    simp only [bandLoop] at h
    cases hE : elevLoop g mass air_drag req v0 cid
        (arangeList emin (emax + 1e-6) 25) best with
    | none =>
      rw [hE] at h
      replace h : bandLoop g mass air_drag req v0 cid rest none = (best', false) := h
      obtain ⟨hbn, helevs⟩ := elevLoop_none_inv g mass air_drag req v0 cid _ _ hE
      obtain ⟨ih1, ih2, ih3⟩ := ih none best' h
      refine ⟨?_, ?_, ?_⟩
      · intro rr hrr
        obtain ⟨ihm, -⟩ := ih1 rr hrr
        refine ⟨?_, ?_⟩
        · intro b hb em hem
          rcases List.mem_cons.mp hb with hb2 | hb2
          · rw [hb2] at hem
            rw [show bandElevs (emin, emax) =
              arangeList emin (emax + 1e-6) 25 from rfl, helevs] at hem
            cases hem
          · exact ihm b hb2 em hem
        · intro bb hbb
          rw [hbn] at hbb
          cases hbb
      · intro hn
        refine ⟨hbn, ?_⟩
        intro b hb
        rcases List.mem_cons.mp hb with hb2 | hb2
        · rw [hb2]
          rw [show bandElevs (emin, emax) =
            arangeList emin (emax + 1e-6) 25 from rfl, helevs]
        · exact (ih2 hn).2 b hb2
      · intro hne0
        cases rest with
        | nil =>
          rw [bandLoop, Prod.mk.injEq] at h
          exact Or.inl h.1.symm
        | cons r2 rest2 => exact ih3 (by simp)
    | some b =>
      rw [hE] at h
      replace h : (if b.miss_total_m ≤ req.tolerance_m
          then ((some b : Option ShotResult), true)
          else bandLoop g mass air_drag req v0 cid rest (some b)) =
            (best', false) := h
      by_cases htol : b.miss_total_m ≤ req.tolerance_m
      · rw [if_pos htol, Prod.mk.injEq] at h
        exact absurd h.2 (by simp)
      · rw [if_neg htol] at h
        obtain ⟨ih1, ih2, ih3⟩ := ih (some b) best' h
        obtain ⟨hprov, hmins, hble⟩ :=
          elevLoop_spec g mass air_drag req v0 cid _ _ b hE
        refine ⟨?_, ?_, ?_⟩
        · intro rr hrr
          obtain ⟨ihm, ihb⟩ := ih1 rr hrr
          have hrb : rr.miss_total_m ≤ b.miss_total_m := ihb b rfl
          refine ⟨?_, ?_⟩
          · intro bb hbb em hem
            rcases List.mem_cons.mp hbb with hb2 | hb2
            · rw [hb2] at hem
              exact le_trans hrb (hmins em hem)
            · exact ihm bb hb2 em hem
          · intro b0 hb0
            exact le_trans hrb (hble b0 hb0)
        · intro hn
          obtain ⟨habs, -⟩ := ih2 hn
          cases habs
        · intro hne0
          cases rest with
          | nil =>
            rw [bandLoop, Prod.mk.injEq] at h
            refine Or.inr ⟨b, h.1.symm, lt_of_not_le htol⟩
          | cons r2 rest2 => exact ih3 (by simp)

theorem bandLoop_some (g mass air_drag : ℝ) (req : SolveRequest) (v0 : ℝ)
    (cid : ℤ) : ∀ (bs : List (ℝ × ℝ)) (b : ShotResult),
    ∃ r, (bandLoop g mass air_drag req v0 cid bs (some b)).1 = some r := by
  intro bs
  induction bs with
  | nil => intro b; exact ⟨b, rfl⟩
  | cons b0 rest ih =>
    obtain ⟨emin, emax⟩ := b0
    intro b
    simp only [bandLoop]
    cases hE : elevLoop g mass air_drag req v0 cid
        (arangeList emin (emax + 1e-6) 25) (some b) with
    | none =>
      obtain ⟨habs, -⟩ := elevLoop_none_inv g mass air_drag req v0 cid _ _ hE
      cases habs
    | some e =>
      show ∃ r, (if e.miss_total_m ≤ req.tolerance_m
          then ((some e : Option ShotResult), true)
          else bandLoop g mass air_drag req v0 cid rest (some e)).1 = some r
      by_cases htol : e.miss_total_m ≤ req.tolerance_m
      · rw [if_pos htol]
        exact ⟨e, rfl⟩
      · rw [if_neg htol]
        exact ih e

theorem bandLoop_some_head (g mass air_drag : ℝ) (req : SolveRequest) (v0 : ℝ)
    (cid : ℤ) (b0 : ℝ × ℝ) (rest : List (ℝ × ℝ)) (best : Option ShotResult)
    (hne : bandElevs b0 ≠ []) :
    ∃ r, (bandLoop g mass air_drag req v0 cid (b0 :: rest) best).1 = some r := by
  obtain ⟨emin, emax⟩ := b0
  simp only [bandLoop]
  cases hE : elevLoop g mass air_drag req v0 cid
      (arangeList emin (emax + 1e-6) 25) best with
  | none =>
    obtain ⟨-, habs⟩ := elevLoop_none_inv g mass air_drag req v0 cid _ _ hE
    exact absurd habs hne
  | some e =>
    show ∃ r, (if e.miss_total_m ≤ req.tolerance_m
        then ((some e : Option ShotResult), true)
        else bandLoop g mass air_drag req v0 cid rest (some e)).1 = some r
    by_cases htol : e.miss_total_m ≤ req.tolerance_m
    · rw [if_pos htol]
      exact ⟨e, rfl⟩
    · rw [if_neg htol]
      exact bandLoop_some g mass air_drag req v0 cid rest e

theorem bandTrace_fst (g mass air_drag : ℝ) (req : SolveRequest) (v0 : ℝ)
    (cid : ℤ) : ∀ (bs : List (ℝ × ℝ)) (best : Option ShotResult) (p : ℤ × ℝ),
    p ∈ bandTrace g mass air_drag req v0 cid bs best → p.1 = cid := by
  intro bs
  induction bs with
  | nil => intro best p hp; cases hp
  | cons b0 rest ih =>
    obtain ⟨emin, emax⟩ := b0
    intro best p hp
    simp only [bandTrace] at hp
    rcases List.mem_append.mp hp with hp2 | hp2
    · obtain ⟨em, -, hpe⟩ := List.mem_map.mp hp2
      rw [← hpe]
    · cases hE : elevLoop g mass air_drag req v0 cid
          (arangeList emin (emax + 1e-6) 25) best with
      | none =>
        rw [hE] at hp2
        replace hp2 : p ∈ bandTrace g mass air_drag req v0 cid rest none := hp2
        exact ih none p hp2
      | some e =>
        rw [hE] at hp2
        replace hp2 : p ∈ (if e.miss_total_m ≤ req.tolerance_m
            then ([] : List (ℤ × ℝ))
            else bandTrace g mass air_drag req v0 cid rest (some e)) := hp2
        by_cases htol : e.miss_total_m ≤ req.tolerance_m
        · rw [if_pos htol] at hp2
          cases hp2
        · rw [if_neg htol] at hp2
          exact ih (some e) p hp2

theorem bandTrace_min (g mass air_drag : ℝ) (req : SolveRequest) (v0 : ℝ)
    (cid : ℤ) : ∀ (bs : List (ℝ × ℝ)) (best best' : Option ShotResult)
    (fired : Bool), bandLoop g mass air_drag req v0 cid bs best = (best', fired) →
    ∀ rr, best' = some rr →
      (∀ p, p ∈ bandTrace g mass air_drag req v0 cid bs best →
        rr.miss_total_m ≤ (cand g mass air_drag req v0 cid p.2).miss_total_m) ∧
      (∀ b0, best = some b0 → rr.miss_total_m ≤ b0.miss_total_m) := by
  intro bs
  induction bs with
  | nil =>
    intro best best' fired h rr hrr
    rw [bandLoop, Prod.mk.injEq] at h
    refine ⟨fun p hp => absurd hp (List.not_mem_nil p), ?_⟩
    intro b0 hb0
    have hsome : some b0 = some rr := by rw [← hb0, h.1, hrr]
    cases hsome
    exact le_rfl
  | cons b0 rest ih =>
    obtain ⟨emin, emax⟩ := b0
    intro best best' fired h rr hrr
    simp only [bandLoop] at h
    simp only [bandTrace]
    cases hE : elevLoop g mass air_drag req v0 cid
        (arangeList emin (emax + 1e-6) 25) best with
    | none =>
      rw [hE] at h
      replace h : bandLoop g mass air_drag req v0 cid rest none = (best', fired) := h
      obtain ⟨hbn, helevs⟩ := elevLoop_none_inv g mass air_drag req v0 cid _ _ hE
      obtain ⟨ihm, -⟩ := ih none best' fired h rr hrr
      refine ⟨?_, ?_⟩
      · intro p hp
        replace hp : p ∈ (arangeList emin (emax + 1e-6) 25).map
            (fun em => ((cid : ℤ), em)) ++
            bandTrace g mass air_drag req v0 cid rest none := hp
        rcases List.mem_append.mp hp with hp2 | hp2
        · rw [helevs] at hp2
          cases hp2
        · exact ihm p hp2
      · intro bb hbb
        rw [hbn] at hbb
        cases hbb
    | some e =>
      rw [hE] at h
      replace h : (if e.miss_total_m ≤ req.tolerance_m
          then ((some e : Option ShotResult), true)
          else bandLoop g mass air_drag req v0 cid rest (some e)) =
            (best', fired) := h
      obtain ⟨hprov, hmins, hble⟩ :=
        elevLoop_spec g mass air_drag req v0 cid _ _ e hE
      by_cases htol : e.miss_total_m ≤ req.tolerance_m
      · rw [if_pos htol, Prod.mk.injEq] at h
        have hre : some e = some rr := by rw [h.1, hrr]
        cases hre
        refine ⟨?_, ?_⟩
        · intro p hp
          replace hp : p ∈ (arangeList emin (emax + 1e-6) 25).map
              (fun em => ((cid : ℤ), em)) ++
              (if rr.miss_total_m ≤ req.tolerance_m
                then ([] : List (ℤ × ℝ))
                else bandTrace g mass air_drag req v0 cid rest (some rr)) := hp
          rw [if_pos htol] at hp
          rcases List.mem_append.mp hp with hp2 | hp2
          · obtain ⟨em, hem, hpe⟩ := List.mem_map.mp hp2
            have hp2e : p.2 = em := by rw [← hpe]
            rw [hp2e]
            exact hmins em hem
          · cases hp2
        · intro b0 hb0
          exact hble b0 hb0
      · rw [if_neg htol] at h
        obtain ⟨ihm, ihb⟩ := ih (some e) best' fired h rr hrr
        have hre : rr.miss_total_m ≤ e.miss_total_m := ihb e rfl
        refine ⟨?_, ?_⟩
        · intro p hp
          replace hp : p ∈ (arangeList emin (emax + 1e-6) 25).map
              (fun em => ((cid : ℤ), em)) ++
              (if e.miss_total_m ≤ req.tolerance_m
                then ([] : List (ℤ × ℝ))
                else bandTrace g mass air_drag req v0 cid rest (some e)) := hp
          rw [if_neg htol] at hp
          rcases List.mem_append.mp hp with hp2 | hp2
          · obtain ⟨em, hem, hpe⟩ := List.mem_map.mp hp2
            have hp2e : p.2 = em := by rw [← hpe]
            rw [hp2e]
            exact le_trans hre (hmins em hem)
          · exact ihm p hp2
        · intro b0 hb0
          exact le_trans hre (hble b0 hb0)

theorem bandTrace_full_of_not_fired (g mass air_drag : ℝ) (req : SolveRequest)
    (v0 : ℝ) (cid : ℤ) : ∀ (bs : List (ℝ × ℝ)) (best best' : Option ShotResult),
    bandLoop g mass air_drag req v0 cid bs best = (best', false) →
    bandTrace g mass air_drag req v0 cid bs best =
      bs.flatMap (fun b => (bandElevs b).map (fun em => (cid, em))) := by
  intro bs
  induction bs with
  | nil => intro best best' h; rfl
  | cons b0 rest ih =>
    obtain ⟨emin, emax⟩ := b0
    intro best best' h
    simp only [bandLoop] at h
    simp only [bandTrace, List.flatMap_cons]
    cases hE : elevLoop g mass air_drag req v0 cid
        (arangeList emin (emax + 1e-6) 25) best with
    | none =>
      rw [hE] at h
      replace h : bandLoop g mass air_drag req v0 cid rest none = (best', false) := h
      show (arangeList emin (emax + 1e-6) 25).map (fun em => ((cid : ℤ), em)) ++
          bandTrace g mass air_drag req v0 cid rest none =
        ((bandElevs (emin, emax)).map (fun em => ((cid : ℤ), em))) ++
          rest.flatMap (fun b => (bandElevs b).map (fun em => (cid, em)))
      rw [ih none best' h]
      rfl
    | some e =>
      rw [hE] at h
      replace h : (if e.miss_total_m ≤ req.tolerance_m
          then ((some e : Option ShotResult), true)
          else bandLoop g mass air_drag req v0 cid rest (some e)) =
            (best', false) := h
      by_cases htol : e.miss_total_m ≤ req.tolerance_m
      · rw [if_pos htol, Prod.mk.injEq] at h
        exact absurd h.2 (by simp)
      · rw [if_neg htol] at h
        show (arangeList emin (emax + 1e-6) 25).map (fun em => ((cid : ℤ), em)) ++
            (if e.miss_total_m ≤ req.tolerance_m
              then ([] : List (ℤ × ℝ))
              else bandTrace g mass air_drag req v0 cid rest (some e)) =
          ((bandElevs (emin, emax)).map (fun em => ((cid : ℤ), em))) ++
            rest.flatMap (fun b => (bandElevs b).map (fun em => (cid, em)))
        rw [if_neg htol, ih (some e) best' h]
        rfl

theorem bandTrace_fired_take (g mass air_drag : ℝ) (req : SolveRequest)
    (v0 : ℝ) (cid : ℤ) : ∀ (bs : List (ℝ × ℝ)) (best best' : Option ShotResult),
    bandLoop g mass air_drag req v0 cid bs best = (best', true) →
    ∃ j, j < bs.length ∧
      bandTrace g mass air_drag req v0 cid bs best =
        (bs.take (j + 1)).flatMap (fun b => (bandElevs b).map (fun em => (cid, em))) := by
  intro bs
  induction bs with
  | nil =>
    intro best best' h
    rw [bandLoop, Prod.mk.injEq] at h
    exact absurd h.2 (by simp)
  | cons b0 rest ih =>
    obtain ⟨emin, emax⟩ := b0
    intro best best' h
    simp only [bandLoop] at h
    simp only [bandTrace]
    cases hE : elevLoop g mass air_drag req v0 cid
        (arangeList emin (emax + 1e-6) 25) best with
    | none =>
      rw [hE] at h
      replace h : bandLoop g mass air_drag req v0 cid rest none = (best', true) := h
      obtain ⟨j, hj, htr⟩ := ih none best' h
      refine ⟨j + 1, by simp only [List.length_cons]; omega, ?_⟩
      show (arangeList emin (emax + 1e-6) 25).map (fun em => ((cid : ℤ), em)) ++
          bandTrace g mass air_drag req v0 cid rest none =
        ((((emin, emax) : ℝ × ℝ) :: rest).take (j + 1 + 1)).flatMap
          (fun b => (bandElevs b).map (fun em => (cid, em)))
      rw [htr]
      simp only [List.take_succ_cons, List.flatMap_cons]
      rfl
    | some e =>
      rw [hE] at h
      replace h : (if e.miss_total_m ≤ req.tolerance_m
          then ((some e : Option ShotResult), true)
          else bandLoop g mass air_drag req v0 cid rest (some e)) =
            (best', true) := h
      by_cases htol : e.miss_total_m ≤ req.tolerance_m
      · refine ⟨0, by simp, ?_⟩
        show (arangeList emin (emax + 1e-6) 25).map (fun em => ((cid : ℤ), em)) ++
            (if e.miss_total_m ≤ req.tolerance_m
              then ([] : List (ℤ × ℝ))
              else bandTrace g mass air_drag req v0 cid rest (some e)) =
          ((((emin, emax) : ℝ × ℝ) :: rest).take 1).flatMap
            (fun b => (bandElevs b).map (fun em => (cid, em)))
        rw [if_pos htol]
        simp only [List.take_succ_cons, List.take_zero, List.flatMap_cons,
          List.flatMap_nil]
        rfl
      · rw [if_neg htol] at h
        obtain ⟨j, hj, htr⟩ := ih (some e) best' h
        refine ⟨j + 1, by simp only [List.length_cons]; omega, ?_⟩
        show (arangeList emin (emax + 1e-6) 25).map (fun em => ((cid : ℤ), em)) ++
            (if e.miss_total_m ≤ req.tolerance_m
              then ([] : List (ℤ × ℝ))
              else bandTrace g mass air_drag req v0 cid rest (some e)) =
          ((((emin, emax) : ℝ × ℝ) :: rest).take (j + 1 + 1)).flatMap
            (fun b => (bandElevs b).map (fun em => (cid, em)))
        rw [if_neg htol, htr]
        simp only [List.take_succ_cons, List.flatMap_cons]
        rfl

theorem bandTrace_prefix (g mass air_drag : ℝ) (req : SolveRequest)
    (v0 : ℝ) (cid : ℤ) (bs : List (ℝ × ℝ)) (best : Option ShotResult) :
    ∃ tail, bs.flatMap (fun b => (bandElevs b).map (fun em => (cid, em))) =
      bandTrace g mass air_drag req v0 cid bs best ++ tail := by
  cases hB : bandLoop g mass air_drag req v0 cid bs best with
  | mk best' fired =>
    cases fired with
    | false =>
      refine ⟨[], ?_⟩
      rw [bandTrace_full_of_not_fired g mass air_drag req v0 cid bs best best' hB]
      rw [List.append_nil]
    | true =>
      obtain ⟨j, hj, htr⟩ := bandTrace_fired_take g mass air_drag req v0 cid
        bs best best' hB
      refine ⟨(bs.drop (j + 1)).flatMap
        (fun b => (bandElevs b).map (fun em => (cid, em))), ?_⟩
      rw [htr, ← List.flatMap_append, List.take_append_drop]

theorem bandLoop_not_fired_neg_tol (g mass air_drag : ℝ) (req : SolveRequest)
    (v0 : ℝ) (cid : ℤ) (htol : req.tolerance_m < 0) :
    ∀ (bs : List (ℝ × ℝ)) (best : Option ShotResult), optNonneg best →
    (bandLoop g mass air_drag req v0 cid bs best).2 = false ∧
    optNonneg (bandLoop g mass air_drag req v0 cid bs best).1 := by
  intro bs
  induction bs with
  | nil => intro best hb; exact ⟨rfl, hb⟩
  | cons b0 rest ih =>
    obtain ⟨emin, emax⟩ := b0
    intro best hb
    simp only [bandLoop]
    cases hE : elevLoop g mass air_drag req v0 cid
        (arangeList emin (emax + 1e-6) 25) best with
    | none => exact ih none (fun x hx => by cases hx)
    | some e =>
      have he : 0 ≤ e.miss_total_m :=
        elevLoop_optNonneg g mass air_drag req v0 cid _ best hb e hE
      have hnot : ¬ e.miss_total_m ≤ req.tolerance_m := by
        intro hc
        exact absurd (lt_of_le_of_lt hc htol) (not_lt.mpr he)
      show ((if e.miss_total_m ≤ req.tolerance_m
          then ((some e : Option ShotResult), true)
          else bandLoop g mass air_drag req v0 cid rest (some e))).2 = false ∧
        optNonneg ((if e.miss_total_m ≤ req.tolerance_m
          then ((some e : Option ShotResult), true)
          else bandLoop g mass air_drag req v0 cid rest (some e))).1
      rw [if_neg hnot]
      exact ih (some e) (fun x hx => by cases hx; exact he)

theorem bandTrace_full_neg_tol (g mass air_drag : ℝ) (req : SolveRequest)
    (v0 : ℝ) (cid : ℤ) (htol : req.tolerance_m < 0) (bs : List (ℝ × ℝ))
    (best : Option ShotResult) (hb : optNonneg best) :
    bandTrace g mass air_drag req v0 cid bs best =
      bs.flatMap (fun b => (bandElevs b).map (fun em => (cid, em))) := by
  obtain ⟨hf, -⟩ := bandLoop_not_fired_neg_tol g mass air_drag req v0 cid htol bs best hb
  refine bandTrace_full_of_not_fired g mass air_drag req v0 cid bs best
    (bandLoop g mass air_drag req v0 cid bs best).1 ?_
  rw [← hf]

theorem bandLoop_optNonneg (g mass air_drag : ℝ) (req : SolveRequest)
    (v0 : ℝ) (cid : ℤ) : ∀ (bs : List (ℝ × ℝ)) (best : Option ShotResult),
    optNonneg best → optNonneg (bandLoop g mass air_drag req v0 cid bs best).1 := by
  intro bs
  induction bs with
  | nil => intro best hb; exact hb
  | cons b0 rest ih =>
    obtain ⟨emin, emax⟩ := b0
    intro best hb
    simp only [bandLoop]
    cases hE : elevLoop g mass air_drag req v0 cid
        (arangeList emin (emax + 1e-6) 25) best with
    | none => exact ih none (fun x hx => by cases hx)
    | some e =>
      have he : 0 ≤ e.miss_total_m :=
        elevLoop_optNonneg g mass air_drag req v0 cid _ best hb e hE
      show optNonneg ((if e.miss_total_m ≤ req.tolerance_m
          then ((some e : Option ShotResult), true)
          else bandLoop g mass air_drag req v0 cid rest (some e))).1
      by_cases htol : e.miss_total_m ≤ req.tolerance_m
      · rw [if_pos htol]
        intro x hx
        cases hx
        exact he
      · rw [if_neg htol]
        exact ih (some e) (fun x hx => by cases hx; exact he)

theorem arangeList_ne_nil (start stop step : ℝ) (hstep : 0 < step)
    (h : start < stop) : arangeList start stop step ≠ [] := by
  have hpos : 0 < (stop - start) / step := div_pos (by linarith) hstep
  have hc : 0 < ⌈(stop - start) / step⌉ := Int.ceil_pos.mpr hpos
  have hlp : 0 < (arangeList start stop step).length := by
    simp only [arangeList, List.length_map, List.length_range]
    obtain ⟨n, hn⟩ := Int.eq_ofNat_of_zero_le (le_of_lt hc)
    rw [hn] at hc ⊢
    simp only [Int.toNat_natCast]
    exact_mod_cast hc
  exact List.ne_nil_of_length_pos hlp

/-- The 25-mil grid over a band whose width is a multiple of 25 hits every
step and includes the upper bound (the `+ 1e-6` guard makes `np.arange`
land exactly one step past the bound). -/
theorem arange_inclusive (emin : ℝ) (m : ℕ) :
    arangeList emin (emin + m * 25 + 1e-6) 25 =
      (List.range (m + 1)).map (fun i : ℕ => emin + (i : ℝ) * 25) := by
  have hceil : ⌈(emin + m * 25 + 1e-6 - emin) / 25⌉ = (m : ℤ) + 1 := by
    have harg : (emin + m * 25 + 1e-6 - emin) / 25 = m + 1e-6 / 25 := by
      field_simp
      ring
    rw [harg]
    rw [Int.ceil_eq_iff]
    constructor
    · push_cast
      norm_num
    · push_cast
      norm_num
  rw [arangeList, hceil]
  rw [show ((m : ℤ) + 1).toNat = m + 1 by omega]

theorem bands_ne_nil (req : SolveRequest) (maxElev : ℝ) :
    bands req maxElev ≠ [] := by
  unfold bands
  by_cases h1 : req.direct_fire <;> by_cases h2 : req.arc = Arc.LOW <;>
    by_cases h3 : req.arc = Arc.HIGH <;> simp [h1, h2, h3]

theorem bands_head_elevs (req : SolveRequest) (maxElev : ℝ)
    (hmax : 650 ≤ maxElev) :
    ∃ b0 rest, bands req maxElev = b0 :: rest ∧ bandElevs b0 ≠ [] := by
  have h250 : bandElevs ((0 : ℝ), (250 : ℝ)) ≠ [] := by
    show arangeList 0 (250 + 1e-6) 25 ≠ []
    exact arangeList_ne_nil _ _ _ (by norm_num) (by norm_num)
  have h650 : bandElevs ((0 : ℝ), (650 : ℝ)) ≠ [] := by
    show arangeList 0 (650 + 1e-6) 25 ≠ []
    exact arangeList_ne_nil _ _ _ (by norm_num) (by norm_num)
  have hhigh : bandElevs ((650 : ℝ), maxElev) ≠ [] := by
    show arangeList 650 (maxElev + 1e-6) 25 ≠ []
    exact arangeList_ne_nil _ _ _ (by norm_num) (by linarith)
  unfold bands
  by_cases h1 : req.direct_fire
  · rw [if_pos h1]
    exact ⟨_, _, rfl, h250⟩
  · rw [if_neg h1]
    by_cases h2 : req.arc = Arc.LOW
    · rw [if_pos h2]
      exact ⟨_, _, rfl, h650⟩
    · rw [if_neg h2]
      by_cases h3 : req.arc = Arc.HIGH
      · rw [if_pos h3]
        exact ⟨_, _, rfl, hhigh⟩
      · rw [if_neg h3]
        exact ⟨_, _, rfl, h650⟩

theorem bandLoop_prov (g mass air_drag : ℝ) (req : SolveRequest) (v0 : ℝ)
    (cid : ℤ) : ∀ (bs : List (ℝ × ℝ)) (best best' : Option ShotResult)
    (fired : Bool), bandLoop g mass air_drag req v0 cid bs best = (best', fired) →
    ∀ rr, best' = some rr → best = some rr ∨
      ∃ b, b ∈ bs ∧ ∃ em, em ∈ bandElevs b ∧
        rr = cand g mass air_drag req v0 cid em := by
  intro bs
  induction bs with
  | nil =>
    intro best best' fired h rr hrr
    rw [bandLoop, Prod.mk.injEq] at h
    exact Or.inl (by rw [h.1, hrr])
  | cons b0 rest ih =>
    obtain ⟨emin, emax⟩ := b0
    intro best best' fired h rr hrr
    simp only [bandLoop] at h
    cases hE : elevLoop g mass air_drag req v0 cid
        (arangeList emin (emax + 1e-6) 25) best with
    | none =>
      rw [hE] at h
      replace h : bandLoop g mass air_drag req v0 cid rest none = (best', fired) := h
      rcases ih none best' fired h rr hrr with habs | ⟨b, hb, em, hem, hr⟩
      · cases habs
      · exact Or.inr ⟨b, List.mem_cons_of_mem _ hb, em, hem, hr⟩
    | some e =>
      rw [hE] at h
      replace h : (if e.miss_total_m ≤ req.tolerance_m
          then ((some e : Option ShotResult), true)
          else bandLoop g mass air_drag req v0 cid rest (some e)) =
            (best', fired) := h
      obtain ⟨hprov, -, -⟩ := elevLoop_spec g mass air_drag req v0 cid _ _ e hE
      by_cases htol : e.miss_total_m ≤ req.tolerance_m
      · rw [if_pos htol, Prod.mk.injEq] at h
        have hre : some e = some rr := by rw [h.1, hrr]
        cases hre
        rcases hprov with hp | ⟨em, hem, hr⟩
        · exact Or.inl hp
        · exact Or.inr ⟨(emin, emax), List.mem_cons_self _ _, em, hem, hr⟩
      · rw [if_neg htol] at h
        rcases ih (some e) best' fired h rr hrr with hes | ⟨b, hb, em, hem, hr⟩
        · have hee : e = rr := by cases hes; rfl
          rcases hprov with hp | ⟨em, hem, hr⟩
          · exact Or.inl (by rw [hp, hee])
          · exact Or.inr ⟨(emin, emax), List.mem_cons_self _ _, em, hem,
              by rw [← hee, hr]⟩
        · exact Or.inr ⟨b, List.mem_cons_of_mem _ hb, em, hem, hr⟩

theorem chargeLoop_ok_of_some (g mass air_drag : ℝ) (req : SolveRequest)
    (w : Weapon) (maxElev : ℝ) : ∀ (cs : List ℤ) (b : ShotResult),
    (∀ c, c ∈ cs → c ∈ dictKeys w.charges) →
    ∃ r, chargeLoop g mass air_drag req w maxElev cs (some b) = .ok (some r) := by
  intro cs
  induction cs with
  | nil => intro b hmem; exact ⟨b, rfl⟩
  | cons cid rest ih =>
    intro b hmem
    obtain ⟨v0, hv⟩ := v0_for_charge_ok w cid (hmem cid (List.mem_cons_self _ _))
    simp only [chargeLoop]
    rw [hv]
    show ∃ r, (match bandLoop g mass air_drag req v0 cid (bands req maxElev)
        (some b) with
      | (best', true) => (Except.ok best' : Except CoreError (Option ShotResult))
      | (best', false) => chargeLoop g mass air_drag req w maxElev rest best') =
        Except.ok (some r)
    obtain ⟨r1, hr1⟩ := bandLoop_some g mass air_drag req v0 cid
      (bands req maxElev) b
    cases hB : bandLoop g mass air_drag req v0 cid (bands req maxElev) (some b) with
    | mk best1 fired =>
      rw [hB] at hr1
      replace hr1 : best1 = some r1 := hr1
      cases fired with
      | true =>
        refine ⟨r1, ?_⟩
        rw [hr1]
      | false =>
        rw [hr1]
        exact ih r1 (fun c hc => hmem c (List.mem_cons_of_mem _ hc))

theorem chargeLoop_min (g mass air_drag : ℝ) (req : SolveRequest) (w : Weapon)
    (maxElev : ℝ) : ∀ (cs : List ℤ) (best res : Option ShotResult),
    chargeLoop g mass air_drag req w maxElev cs best = .ok res →
    ∀ rr, res = some rr →
      (∀ p, p ∈ chargeTrace g mass air_drag req w maxElev cs best →
        rr.miss_total_m ≤ (candAt g mass air_drag req w p).miss_total_m) ∧
      (∀ b0, best = some b0 → rr.miss_total_m ≤ b0.miss_total_m) := by
  intro cs
  induction cs with
  | nil =>
    intro best res h rr hrr
    rw [chargeLoop] at h
    have hbr : best = some rr := by
      have h2 : best = res := by
        cases h
        rfl
      rw [h2, hrr]
    refine ⟨fun p hp => absurd hp (List.not_mem_nil p), ?_⟩
    intro b0 hb0
    have h3 : some b0 = some rr := by rw [← hb0, hbr]
    cases h3
    exact le_rfl
  | cons cid rest ih =>
    intro best res h rr hrr
    simp only [chargeLoop] at h
    simp only [chargeTrace]
    cases hv : w.v0_for_charge cid with
    | error e =>
      rw [hv] at h
      cases h
    | ok v0 =>
      rw [hv] at h
      replace h : (match bandLoop g mass air_drag req v0 cid (bands req maxElev)
          best with
        | (best', true) => (Except.ok best' : Except CoreError (Option ShotResult))
        | (best', false) => chargeLoop g mass air_drag req w maxElev rest best') =
          Except.ok res := h
      have hcand : ∀ p, p ∈ bandTrace g mass air_drag req v0 cid
          (bands req maxElev) best →
          candAt g mass air_drag req w p = cand g mass air_drag req v0 cid p.2 := by
        intro p hp
        have h1 := bandTrace_fst g mass air_drag req v0 cid _ best p hp
        unfold candAt
        rw [h1, v0val_eq w cid v0 hv]
      cases hB : bandLoop g mass air_drag req v0 cid (bands req maxElev) best with
      | mk best1 fired =>
        rw [hB] at h
        cases fired with
        | true =>
          replace h : (Except.ok best1 : Except CoreError (Option ShotResult)) =
              .ok res := h
          have hbr : best1 = some rr := by
            cases h
            rw [hrr]
          obtain ⟨hm, hle⟩ := bandTrace_min g mass air_drag req v0 cid
            (bands req maxElev) best best1 true hB rr hbr
          refine ⟨?_, hle⟩
          intro p hp
          replace hp : p ∈ bandTrace g mass air_drag req v0 cid
              (bands req maxElev) best ++
              (match bandLoop g mass air_drag req v0 cid (bands req maxElev)
                best with
              | (_, true) => ([] : List (ℤ × ℝ))
              | (best', false) =>
                chargeTrace g mass air_drag req w maxElev rest best') := hp
          rw [hB] at hp
          replace hp : p ∈ bandTrace g mass air_drag req v0 cid
              (bands req maxElev) best ++ ([] : List (ℤ × ℝ)) := hp
          rw [List.append_nil] at hp
          rw [hcand p hp]
          exact hm p hp
        | false =>
          replace h : chargeLoop g mass air_drag req w maxElev rest best1 =
              .ok res := h
          obtain ⟨ihm, ihb⟩ := ih best1 res h rr hrr
          refine ⟨?_, ?_⟩
          · intro p hp
            replace hp : p ∈ bandTrace g mass air_drag req v0 cid
                (bands req maxElev) best ++
                (match bandLoop g mass air_drag req v0 cid (bands req maxElev)
                  best with
                | (_, true) => ([] : List (ℤ × ℝ))
                | (best', false) =>
                  chargeTrace g mass air_drag req w maxElev rest best') := hp
            rw [hB] at hp
            replace hp : p ∈ bandTrace g mass air_drag req v0 cid
                (bands req maxElev) best ++
                chargeTrace g mass air_drag req w maxElev rest best1 := hp
            rcases List.mem_append.mp hp with hp2 | hp2
            · cases hb1 : best1 with
              | some b1 =>
                have hrb1 : rr.miss_total_m ≤ b1.miss_total_m := ihb b1 hb1
                obtain ⟨hm1, -⟩ := bandTrace_min g mass air_drag req v0 cid
                  (bands req maxElev) best best1 false hB b1 hb1
                rw [hcand p hp2]
                exact le_trans hrb1 (hm1 p hp2)
              | none =>
                obtain ⟨-, hempty, -⟩ := bandLoop_not_fired g mass air_drag req
                  v0 cid (bands req maxElev) best best1 hB
                rw [bandTrace_full_of_not_fired g mass air_drag req v0 cid
                  (bands req maxElev) best best1 hB] at hp2
                obtain ⟨b, hb, hpb⟩ := List.mem_flatMap.mp hp2
                rw [(hempty hb1).2 b hb] at hpb
                cases hpb
            · exact ihm p hp2
          · intro b0 hb0
            cases hb1 : best1 with
            | some b1 =>
              have hrb1 : rr.miss_total_m ≤ b1.miss_total_m := ihb b1 hb1
              obtain ⟨-, hle1⟩ := bandTrace_min g mass air_drag req v0 cid
                (bands req maxElev) best best1 false hB b1 hb1
              exact le_trans hrb1 (hle1 b0 hb0)
            | none =>
              obtain ⟨-, hempty, -⟩ := bandLoop_not_fired g mass air_drag req
                v0 cid (bands req maxElev) best best1 hB
              rw [(hempty hb1).1] at hb0
              cases hb0

theorem chargeTrace_prefix (g mass air_drag : ℝ) (req : SolveRequest)
    (w : Weapon) (maxElev : ℝ) : ∀ (cs : List ℤ) (best : Option ShotResult),
    ∃ tail, cs.flatMap (fun c => (bands req maxElev).flatMap
        (fun b => (bandElevs b).map (fun em => (c, em)))) =
      chargeTrace g mass air_drag req w maxElev cs best ++ tail := by
  intro cs
  induction cs with
  | nil => exact fun best => ⟨[], rfl⟩
  | cons cid rest ih =>
    intro best
    simp only [chargeTrace, List.flatMap_cons]
    cases hv : w.v0_for_charge cid with
    | error e =>
      refine ⟨(bands req maxElev).flatMap
          (fun b => (bandElevs b).map (fun em => (cid, em))) ++
        rest.flatMap (fun c => (bands req maxElev).flatMap
          (fun b => (bandElevs b).map (fun em => (c, em)))), ?_⟩
      show (bands req maxElev).flatMap
          (fun b => (bandElevs b).map (fun em => ((cid : ℤ), em))) ++
          rest.flatMap (fun c => (bands req maxElev).flatMap
            (fun b => (bandElevs b).map (fun em => (c, em)))) =
        ([] : List (ℤ × ℝ)) ++ _
      rw [List.nil_append]
    | ok v0 =>
      show ∃ tail, (bands req maxElev).flatMap
          (fun b => (bandElevs b).map (fun em => ((cid : ℤ), em))) ++
          rest.flatMap (fun c => (bands req maxElev).flatMap
            (fun b => (bandElevs b).map (fun em => (c, em)))) =
        (bandTrace g mass air_drag req v0 cid (bands req maxElev) best ++
          (match bandLoop g mass air_drag req v0 cid (bands req maxElev) best with
           | (_, true) => ([] : List (ℤ × ℝ))
           | (best', false) =>
             chargeTrace g mass air_drag req w maxElev rest best')) ++ tail
      cases hB : bandLoop g mass air_drag req v0 cid (bands req maxElev) best with
      | mk best1 fired =>
        cases fired with
        | true =>
          obtain ⟨t1, ht1⟩ := bandTrace_prefix g mass air_drag req v0 cid
            (bands req maxElev) best
          refine ⟨t1 ++ rest.flatMap (fun c => (bands req maxElev).flatMap
            (fun b => (bandElevs b).map (fun em => (c, em)))), ?_⟩
          rw [List.append_nil, ht1]
          rw [List.append_assoc]
        | false =>
          obtain ⟨t2, ht2⟩ := ih best1
          refine ⟨t2, ?_⟩
          rw [bandTrace_full_of_not_fired g mass air_drag req v0 cid
            (bands req maxElev) best best1 hB]
          rw [ht2, List.append_assoc]

theorem chargeTrace_full_neg_tol (g mass air_drag : ℝ) (req : SolveRequest)
    (w : Weapon) (maxElev : ℝ) (htol : req.tolerance_m < 0) :
    ∀ (cs : List ℤ) (best : Option ShotResult),
    (∀ c, c ∈ cs → c ∈ dictKeys w.charges) → optNonneg best →
    chargeTrace g mass air_drag req w maxElev cs best =
      cs.flatMap (fun c => (bands req maxElev).flatMap
        (fun b => (bandElevs b).map (fun em => (c, em)))) := by
  intro cs
  induction cs with
  | nil => intro best hmem hb; rfl
  | cons cid rest ih =>
    intro best hmem hb
    obtain ⟨v0, hv⟩ := v0_for_charge_ok w cid (hmem cid (List.mem_cons_self _ _))
    simp only [chargeTrace, List.flatMap_cons]
    rw [hv]
    show bandTrace g mass air_drag req v0 cid (bands req maxElev) best ++
        (match bandLoop g mass air_drag req v0 cid (bands req maxElev) best with
         | (_, true) => ([] : List (ℤ × ℝ))
         | (best', false) =>
           chargeTrace g mass air_drag req w maxElev rest best') = _
    cases hB : bandLoop g mass air_drag req v0 cid (bands req maxElev) best with
    | mk best1 fired =>
      have hf := (bandLoop_not_fired_neg_tol g mass air_drag req v0 cid htol
        (bands req maxElev) best hb).1
      rw [hB] at hf
      replace hf : fired = false := hf
      subst hf
      have hnn := bandLoop_optNonneg g mass air_drag req v0 cid
        (bands req maxElev) best hb
      rw [hB] at hnn
      replace hnn : optNonneg best1 := hnn
      show bandTrace g mass air_drag req v0 cid (bands req maxElev) best ++
        chargeTrace g mass air_drag req w maxElev rest best1 = _
      rw [bandTrace_full_neg_tol g mass air_drag req v0 cid htol
        (bands req maxElev) best hb]
      rw [ih best1 (fun c hc => hmem c (List.mem_cons_of_mem _ hc)) hnn]

theorem chargeLoop_lowest (g mass air_drag : ℝ) (req : SolveRequest)
    (w : Weapon) (maxElev : ℝ) : ∀ (cs : List ℤ) (best : Option ShotResult),
    List.Pairwise (· < ·) cs →
    (best = none ∨ ∃ b, best = some b ∧ req.tolerance_m < b.miss_total_m) →
    ∀ r, chargeLoop g mass air_drag req w maxElev cs best = .ok (some r) →
    r.miss_total_m ≤ req.tolerance_m →
    ∀ c, c ∈ cs → c < r.charge →
    ∀ b, b ∈ bands req maxElev → ∀ em, em ∈ bandElevs b →
      req.tolerance_m < (cand g mass air_drag req (v0val w c) c em).miss_total_m := by
  intro cs
  induction cs with
  | nil =>
    intro best hpw hentry r h hrtol c hc
    cases hc
  | cons cid rest ih =>
    intro best hpw hentry r h hrtol c hc hlt
    rw [List.pairwise_cons] at hpw
    simp only [chargeLoop] at h
    cases hv : w.v0_for_charge cid with
    | error e =>
      rw [hv] at h
      cases h
    | ok v0 =>
      rw [hv] at h
      replace h : (match bandLoop g mass air_drag req v0 cid (bands req maxElev)
          best with
        | (best', true) => (Except.ok best' : Except CoreError (Option ShotResult))
        | (best', false) => chargeLoop g mass air_drag req w maxElev rest best') =
          Except.ok (some r) := h
      cases hB : bandLoop g mass air_drag req v0 cid (bands req maxElev) best with
      | mk best1 fired =>
        rw [hB] at h
        cases fired with
        | true =>
          replace h : (Except.ok best1 : Except CoreError (Option ShotResult)) =
              .ok (some r) := h
          have hbr : best1 = some r := by
            cases h
            rfl
          rcases bandLoop_prov g mass air_drag req v0 cid (bands req maxElev)
              best best1 true hB r hbr with hp | ⟨b1, hb1, em1, hem1, hr1⟩
          · rcases hentry with he | ⟨bb, hbb, htolb⟩
            · rw [he] at hp
              cases hp
            · rw [hbb] at hp
              have hbr2 : bb = r := by
                cases hp
                rfl
              rw [hbr2] at htolb
              exact absurd hrtol (not_le.mpr htolb)
          · have hch : r.charge = cid := by
              rw [hr1]
              rfl
            rcases List.mem_cons.mp hc with hceq | hcr
            · rw [hceq, hch] at hlt
              exact absurd hlt (lt_irrefl cid)
            · have hgt := hpw.1 c hcr
              rw [hch] at hlt
              exact absurd hlt (not_lt.mpr (le_of_lt hgt))
        | false =>
          replace h : chargeLoop g mass air_drag req w maxElev rest best1 =
              .ok (some r) := h
          obtain ⟨hm1, hn1, hc3⟩ := bandLoop_not_fired g mass air_drag req v0
            cid (bands req maxElev) best best1 hB
          have hentry1 : best1 = none ∨
              ∃ b, best1 = some b ∧ req.tolerance_m < b.miss_total_m := by
            rcases hc3 (bands_ne_nil req maxElev) with h1 | ⟨rr1, hr1, ht1⟩
            · exact Or.inl h1
            · exact Or.inr ⟨rr1, hr1, ht1⟩
          rcases List.mem_cons.mp hc with hceq | hcr
          · subst hceq
            intro b hb em hem
            rw [v0val_eq w c v0 hv]
            cases hb1 : best1 with
            | some b1 =>
              obtain ⟨hmins, -⟩ := hm1 b1 hb1
              rcases hentry1 with h1 | ⟨bb, hbb, htb⟩
              · rw [hb1] at h1
                cases h1
              · have hbb1 : bb = b1 := by
                  rw [hb1] at hbb
                  cases hbb
                  rfl
                rw [hbb1] at htb
                exact lt_of_lt_of_le htb (hmins b hb em hem)
            | none =>
              obtain ⟨-, hempty⟩ := hn1 hb1
              rw [hempty b hb] at hem
              cases hem
          · exact ih best1 hpw.2 hentry1 r h hrtol c hcr hlt

theorem sortedKeys_pairwise_lt (w : Weapon)
    (hnd : (dictKeys w.charges).Nodup) :
    List.Pairwise (· < ·) (sortedKeys w) := by
  have hs : List.Pairwise (· ≤ ·) (sortedKeys w) :=
    List.sorted_insertionSort (· ≤ ·) (dictKeys w.charges)
  have hn : List.Pairwise (· ≠ ·) (sortedKeys w) :=
    ((List.perm_insertionSort (· ≤ ·) (dictKeys w.charges)).nodup_iff).mpr hnd
  exact (hs.and hn).imp (fun h => lt_of_le_of_ne h.1 h.2)

theorem suggest_best_no_tables (g mass air_drag : ℝ) (req : SolveRequest)
    (w : Weapon) (maxElev : ℝ) :
    suggest_best g mass air_drag req w maxElev none =
      chargeLoop g mass air_drag req w maxElev (sortedKeys w) none := rfl

theorem bandElevs_inclusive (emin : ℝ) (m : ℕ) :
    bandElevs (emin, emin + (m : ℝ) * 25) =
      (List.range (m + 1)).map (fun i : ℕ => emin + (i : ℝ) * 25) := by
  show arangeList emin (emin + (m : ℝ) * 25 + 1e-6) 25 = _
  exact arange_inclusive emin m

/-- C4: the brute-force candidate set.  The elevation bands are selected by
mode exactly as the spec's table states; each band is scanned in 25-mil
steps inclusive of the band's upper bound (the bands all span a multiple of
25 mil, the HIGH band under the spec's implied assumption that
MAX_ELEVATION_MIL, absent with config.py, is 650 plus a multiple of 25);
charges iterate in ascending id order; and the evaluated candidates are an
initial segment of this full grid, the whole grid when no early exit can
fire (a negative tolerance). -/
theorem suggest_best_candidate_grid (g mass air_drag : ℝ) (req : SolveRequest)
    (w : Weapon) (maxElev : ℝ) (kk : ℕ) (hmax : maxElev = 650 + (kk : ℝ) * 25) :
    (req.direct_fire = true → bands req maxElev = [(0, 250)]) ∧
    (req.direct_fire = false → req.arc = Arc.LOW →
      bands req maxElev = [(0, 650)]) ∧
    (req.direct_fire = false → req.arc = Arc.HIGH →
      bands req maxElev = [(650, maxElev)]) ∧
    (req.direct_fire = false → req.arc = Arc.ANY →
      bands req maxElev = [(0, 650), (650, maxElev)]) ∧
    (∀ b, b ∈ bands req maxElev → ∃ m : ℕ,
      bandElevs b = (List.range (m + 1)).map (fun i : ℕ => b.1 + (i : ℝ) * 25) ∧
      b.1 + (m : ℝ) * 25 = b.2) ∧
    List.Sorted (· ≤ ·) (sortedKeys w) ∧
    (∀ c : ℤ, c ∈ sortedKeys w ↔ c ∈ dictKeys w.charges) ∧
    (∃ tail, fullGrid req w maxElev =
      chargeTrace g mass air_drag req w maxElev (sortedKeys w) none ++ tail) ∧
    (req.tolerance_m < 0 →
      chargeTrace g mass air_drag req w maxElev (sortedKeys w) none =
        fullGrid req w maxElev) := by
  have h250 : bandElevs ((0 : ℝ), (250 : ℝ)) =
      (List.range (10 + 1)).map (fun i : ℕ => (0 : ℝ) + (i : ℝ) * 25) := by
    rw [show ((0 : ℝ), (250 : ℝ)) = ((0 : ℝ), (0 : ℝ) + ((10 : ℕ) : ℝ) * 25) by
      norm_num]
    exact bandElevs_inclusive 0 10
  have h650 : bandElevs ((0 : ℝ), (650 : ℝ)) =
      (List.range (26 + 1)).map (fun i : ℕ => (0 : ℝ) + (i : ℝ) * 25) := by
    rw [show ((0 : ℝ), (650 : ℝ)) = ((0 : ℝ), (0 : ℝ) + ((26 : ℕ) : ℝ) * 25) by
      norm_num]
    exact bandElevs_inclusive 0 26
  have hHigh : bandElevs ((650 : ℝ), maxElev) =
      (List.range (kk + 1)).map (fun i : ℕ => (650 : ℝ) + (i : ℝ) * 25) := by
    rw [show ((650 : ℝ), maxElev) = ((650 : ℝ), (650 : ℝ) + ((kk : ℕ) : ℝ) * 25) by
      rw [hmax]]
    exact bandElevs_inclusive 650 kk
  refine ⟨?_, ?_, ?_, ?_, ?_, List.sorted_insertionSort _ _,
    fun c => (List.perm_insertionSort _ _).mem_iff, ?_, ?_⟩
  · intro h1
    simp [bands, h1]
  · intro h1 h2
    simp [bands, h1, h2]
  · intro h1 h3
    simp [bands, h1, h3]
  · intro h1 h4
    simp [bands, h1, h4]
  · intro b hb
    unfold bands at hb
    by_cases h1 : req.direct_fire
    · rw [if_pos h1] at hb
      have hb2 := List.mem_singleton.mp hb
      subst hb2
      exact ⟨10, h250, by norm_num⟩
    · rw [if_neg h1] at hb
      by_cases h2 : req.arc = Arc.LOW
      · rw [if_pos h2] at hb
        have hb2 := List.mem_singleton.mp hb
        subst hb2
        exact ⟨26, h650, by norm_num⟩
      · rw [if_neg h2] at hb
        by_cases h3 : req.arc = Arc.HIGH
        · rw [if_pos h3] at hb
          have hb2 := List.mem_singleton.mp hb
          subst hb2
          refine ⟨kk, hHigh, ?_⟩
          show (650 : ℝ) + (kk : ℝ) * 25 = maxElev
          rw [hmax]
        · rw [if_neg h3] at hb
          rcases List.mem_cons.mp hb with hb2 | hb2
          · subst hb2
            exact ⟨26, h650, by norm_num⟩
          · have hb3 := List.mem_singleton.mp hb2
            subst hb3
            refine ⟨kk, hHigh, ?_⟩
            show (650 : ℝ) + (kk : ℝ) * 25 = maxElev
            rw [hmax]
  · exact chargeTrace_prefix g mass air_drag req w maxElev (sortedKeys w) none
  · intro htol
    rw [chargeTrace_full_neg_tol g mass air_drag req w maxElev htol
      (sortedKeys w) none
      (fun c hc => (List.perm_insertionSort _ _).mem_iff.mp hc)
      (fun x hx => by cases hx)]
    rfl

/-- Witness for C4 at a concrete direct-fire request. -/
theorem suggest_best_candidate_grid_witness :
    bands ⟨0, 0, 0, (0, 0, 0), Arc.ANY, true, 0, 1, 1⟩ 1500 = [(0, 250)] :=
  (suggest_best_candidate_grid 0 1 0 ⟨0, 0, 0, (0, 0, 0), Arc.ANY, true, 0, 1, 1⟩
    ⟨1, [(1, 1)]⟩ 1500 34 (by norm_num)).1 rfl

/-- C5: the tolerance early exit.  When a charge's band scan first meets the
tolerance, the charge loop returns the running best immediately: the
evaluated-candidate trace for that charge and all remaining charges is
exactly the trace of the firing charge's band loop, which itself covers only
the bands up to the firing one, and the returned best meets the tolerance.
Moreover, since charges are scanned in ascending id order, whenever the full
run returns a result meeting the tolerance, every candidate of every
strictly lower charge id misses by more than the tolerance — the lowest
charge id able to meet the tolerance is the one returned. -/
theorem suggest_best_early_exit (g mass air_drag : ℝ) (req : SolveRequest)
    (w : Weapon) (maxElev : ℝ) (hnd : (dictKeys w.charges).Nodup) :
    (∀ (cid : ℤ) (cs : List ℤ) (best best' : Option ShotResult) (v0 : ℝ),
      w.v0_for_charge cid = .ok v0 →
      bandLoop g mass air_drag req v0 cid (bands req maxElev) best =
        (best', true) →
      chargeLoop g mass air_drag req w maxElev (cid :: cs) best = .ok best' ∧
      chargeTrace g mass air_drag req w maxElev (cid :: cs) best =
        bandTrace g mass air_drag req v0 cid (bands req maxElev) best ∧
      (∃ r, best' = some r ∧ r.miss_total_m ≤ req.tolerance_m) ∧
      (∃ j, j < (bands req maxElev).length ∧
        bandTrace g mass air_drag req v0 cid (bands req maxElev) best =
          ((bands req maxElev).take (j + 1)).flatMap
            (fun b => (bandElevs b).map (fun em => (cid, em))))) ∧
    (∀ r, suggest_best g mass air_drag req w maxElev none = .ok (some r) →
      r.miss_total_m ≤ req.tolerance_m →
      ∀ c, c ∈ dictKeys w.charges → c < r.charge →
      ∀ b, b ∈ bands req maxElev → ∀ em, em ∈ bandElevs b →
        req.tolerance_m <
          (cand g mass air_drag req (v0val w c) c em).miss_total_m) := by
  constructor
  · intro cid cs best best' v0 hv hB
    refine ⟨?_, ?_,
      bandLoop_fired g mass air_drag req v0 cid _ best best' hB,
      bandTrace_fired_take g mass air_drag req v0 cid _ best best' hB⟩
    · simp only [chargeLoop]
      rw [hv]
      show (match bandLoop g mass air_drag req v0 cid (bands req maxElev)
          best with
        | (b2, true) => (Except.ok b2 : Except CoreError (Option ShotResult))
        | (b2, false) => chargeLoop g mass air_drag req w maxElev cs b2) =
          Except.ok best'
      rw [hB]
    · simp only [chargeTrace]
      rw [hv]
      show bandTrace g mass air_drag req v0 cid (bands req maxElev) best ++
          (match bandLoop g mass air_drag req v0 cid (bands req maxElev)
            best with
          | (_, true) => ([] : List (ℤ × ℝ))
          | (b2, false) => chargeTrace g mass air_drag req w maxElev cs b2) = _
      rw [hB]
      show bandTrace g mass air_drag req v0 cid (bands req maxElev) best ++
        ([] : List (ℤ × ℝ)) = _
      rw [List.append_nil]
  · intro r hr hrtol c hcmem hclt
    have hrun : chargeLoop g mass air_drag req w maxElev (sortedKeys w) none =
        .ok (some r) := hr
    exact chargeLoop_lowest g mass air_drag req w maxElev (sortedKeys w) none
      (sortedKeys_pairwise_lt w hnd) (Or.inl rfl) r hrun hrtol c
      ((List.perm_insertionSort _ _).mem_iff.mpr hcmem) hclt

/-- Witness for C5 at a concrete weapon catalog. -/
theorem suggest_best_early_exit_witness :
    (∀ (cid : ℤ) (cs : List ℤ) (best best' : Option ShotResult) (v0 : ℝ),
      Weapon.v0_for_charge ⟨1, [(1, 1), (2, 2)]⟩ cid = .ok v0 →
      bandLoop 0 1 0 ⟨0, 0, 0, (0, 0, 0), Arc.ANY, true, 0, 1, 1⟩ v0 cid
        (bands ⟨0, 0, 0, (0, 0, 0), Arc.ANY, true, 0, 1, 1⟩ 1500) best =
        (best', true) →
      chargeLoop 0 1 0 ⟨0, 0, 0, (0, 0, 0), Arc.ANY, true, 0, 1, 1⟩
        ⟨1, [(1, 1), (2, 2)]⟩ 1500 (cid :: cs) best = .ok best' ∧
      chargeTrace 0 1 0 ⟨0, 0, 0, (0, 0, 0), Arc.ANY, true, 0, 1, 1⟩
        ⟨1, [(1, 1), (2, 2)]⟩ 1500 (cid :: cs) best =
        bandTrace 0 1 0 ⟨0, 0, 0, (0, 0, 0), Arc.ANY, true, 0, 1, 1⟩ v0 cid
          (bands ⟨0, 0, 0, (0, 0, 0), Arc.ANY, true, 0, 1, 1⟩ 1500) best ∧
      (∃ r, best' = some r ∧ r.miss_total_m ≤
        (⟨0, 0, 0, (0, 0, 0), Arc.ANY, true, 0, 1, 1⟩ : SolveRequest).tolerance_m) ∧
      (∃ j, j < (bands ⟨0, 0, 0, (0, 0, 0), Arc.ANY, true, 0, 1, 1⟩ 1500).length ∧
        bandTrace 0 1 0 ⟨0, 0, 0, (0, 0, 0), Arc.ANY, true, 0, 1, 1⟩ v0 cid
          (bands ⟨0, 0, 0, (0, 0, 0), Arc.ANY, true, 0, 1, 1⟩ 1500) best =
          (((bands ⟨0, 0, 0, (0, 0, 0), Arc.ANY, true, 0, 1, 1⟩ 1500).take
            (j + 1)).flatMap
            (fun b => (bandElevs b).map (fun em => (cid, em)))))) ∧
    (∀ r, suggest_best 0 1 0 ⟨0, 0, 0, (0, 0, 0), Arc.ANY, true, 0, 1, 1⟩
        ⟨1, [(1, 1), (2, 2)]⟩ 1500 none = .ok (some r) →
      r.miss_total_m ≤
        (⟨0, 0, 0, (0, 0, 0), Arc.ANY, true, 0, 1, 1⟩ : SolveRequest).tolerance_m →
      ∀ c, c ∈ dictKeys (⟨1, [(1, 1), (2, 2)]⟩ : Weapon).charges →
        c < r.charge →
      ∀ b, b ∈ bands ⟨0, 0, 0, (0, 0, 0), Arc.ANY, true, 0, 1, 1⟩ 1500 →
      ∀ em, em ∈ bandElevs b →
        (⟨0, 0, 0, (0, 0, 0), Arc.ANY, true, 0, 1, 1⟩ : SolveRequest).tolerance_m <
          (cand 0 1 0 ⟨0, 0, 0, (0, 0, 0), Arc.ANY, true, 0, 1, 1⟩
            (v0val ⟨1, [(1, 1), (2, 2)]⟩ c) c em).miss_total_m) :=
  suggest_best_early_exit 0 1 0 ⟨0, 0, 0, (0, 0, 0), Arc.ANY, true, 0, 1, 1⟩
    ⟨1, [(1, 1), (2, 2)]⟩ 1500 (by decide)

/-- C6: the brute-force entry point returns the no-result value exactly when
the charge catalog is empty; with a non-empty catalog it returns (without
error) the candidate of minimum total miss among all candidates it
evaluated, even when that miss exceeds the tolerance — an unmet tolerance
is not signalled as null or as an error.  (The hypothesis keeps the spec's
implicit constraint that MAX_ELEVATION_MIL, absent with config.py, lies
above the 650-mil HIGH-band floor.) -/
theorem suggest_best_none_iff (g mass air_drag : ℝ) (req : SolveRequest)
    (w : Weapon) (maxElev : ℝ) (hmax : 650 ≤ maxElev) :
    (suggest_best g mass air_drag req w maxElev none = .ok none ↔
      w.charges = []) ∧
    (w.charges ≠ [] → ∃ r,
      suggest_best g mass air_drag req w maxElev none = .ok (some r) ∧
      ∀ p, p ∈ chargeTrace g mass air_drag req w maxElev (sortedKeys w) none →
        r.miss_total_m ≤ (candAt g mass air_drag req w p).miss_total_m) := by
  have part2 : w.charges ≠ [] → ∃ r,
      suggest_best g mass air_drag req w maxElev none = .ok (some r) ∧
      ∀ p, p ∈ chargeTrace g mass air_drag req w maxElev (sortedKeys w) none →
        r.miss_total_m ≤ (candAt g mass air_drag req w p).miss_total_m := by
    intro hne
    have hkeysne : sortedKeys w ≠ [] := by
      intro hcon
      apply hne
      have hperm : (sortedKeys w).Perm (dictKeys w.charges) :=
        List.perm_insertionSort (· ≤ ·) (dictKeys w.charges)
      rw [hcon] at hperm
      have hk : dictKeys w.charges = [] := (hperm.symm).eq_nil
      exact List.map_eq_nil_iff.mp hk
    cases hsk : sortedKeys w with
    | nil => exact absurd hsk hkeysne
    | cons c0 crest =>
      have hmemall : ∀ c, c ∈ sortedKeys w → c ∈ dictKeys w.charges :=
        fun c hc => (List.perm_insertionSort _ _).mem_iff.mp hc
      have hc0 : c0 ∈ dictKeys w.charges :=
        hmemall c0 (by rw [hsk]; exact List.mem_cons_self _ _)
      obtain ⟨v00, hv0⟩ := v0_for_charge_ok w c0 hc0
      obtain ⟨b0, brest, hbands, hne0⟩ := bands_head_elevs req maxElev hmax
      obtain ⟨r1, hr1⟩ : ∃ r1,
          (bandLoop g mass air_drag req v00 c0 (bands req maxElev) none).1 =
            some r1 := by
        rw [hbands]
        exact bandLoop_some_head g mass air_drag req v00 c0 b0 brest none hne0
      have hrun : ∃ r, chargeLoop g mass air_drag req w maxElev (c0 :: crest)
          none = .ok (some r) := by
        simp only [chargeLoop]
        rw [hv0]
        show ∃ r, (match bandLoop g mass air_drag req v00 c0 (bands req maxElev)
            none with
          | (b2, true) => (Except.ok b2 : Except CoreError (Option ShotResult))
          | (b2, false) => chargeLoop g mass air_drag req w maxElev crest b2) =
            Except.ok (some r)
        cases hB : bandLoop g mass air_drag req v00 c0 (bands req maxElev)
            none with
        | mk best1 fired =>
          rw [hB] at hr1
          replace hr1 : best1 = some r1 := hr1
          cases fired with
          | true =>
            refine ⟨r1, ?_⟩
            rw [hr1]
          | false =>
            rw [hr1]
            exact chargeLoop_ok_of_some g mass air_drag req w maxElev crest r1
              (fun c hc => hmemall c (by rw [hsk]; exact List.mem_cons_of_mem _ hc))
      obtain ⟨r, hr⟩ := hrun
      have hrun2 : chargeLoop g mass air_drag req w maxElev (sortedKeys w)
          none = .ok (some r) := by
        rw [hsk]
        exact hr
      refine ⟨r, hrun2, ?_⟩
      intro p hp
      obtain ⟨hm, -⟩ := chargeLoop_min g mass air_drag req w maxElev
        (c0 :: crest) none (some r) hr r rfl
      exact hm p hp
  refine ⟨⟨?_, ?_⟩, part2⟩
  · intro hok
    by_contra hne
    obtain ⟨r, hr, -⟩ := part2 hne
    rw [hok] at hr
    simp at hr
  · intro hempty
    show chargeLoop g mass air_drag req w maxElev (sortedKeys w) none = .ok none
    have hsk : sortedKeys w = [] := by
      unfold sortedKeys dictKeys
      rw [hempty]
      rfl
    rw [hsk]
    rfl

/-- Witness for C6: with a one-charge catalog the entry point does not
return the no-result value. -/
theorem suggest_best_none_iff_witness :
    (suggest_best 0 1 0 ⟨0, 0, 0, (0, 0, 0), Arc.ANY, true, 0, 1, 1⟩
      ⟨1, [(1, 1)]⟩ 650 none = .ok none) ↔
      (⟨1, [(1, 1)]⟩ : Weapon).charges = [] :=
  (suggest_best_none_iff 0 1 0 ⟨0, 0, 0, (0, 0, 0), Arc.ANY, true, 0, 1, 1⟩
    ⟨1, [(1, 1)]⟩ 650 (le_refl 650)).1

/-! ## Table-accelerated refinement (C7) -/

theorem getD_range_map (n j : ℕ) (f : ℕ → ℝ) (hj : j < n) :
    ((List.range n).map f).getD j 0 = f j := by
  rw [List.getD_eq_getElem?_getD]
  simp [List.getElem?_map, List.getElem?_range, hj]

theorem linspace_length (start stop : ℝ) (n : ℕ) :
    (linspace start stop n).length = n := by
  simp [linspace]

theorem linspace_ne_nil (start stop : ℝ) : linspace start stop 11 ≠ [] := by
  intro h
  have := congrArg List.length h
  rw [linspace_length] at this
  simp at this

theorem linspace_getD (start stop : ℝ) (j : ℕ) (hj : j < 11) :
    (linspace start stop 11).getD j 0 =
      start + (j : ℝ) * ((stop - start) / 10) := by
  unfold linspace
  rw [getD_range_map 11 j _ hj]
  norm_num

/-- The window the next refinement round will use, iterated from `w`. -/
noncomputable def windowFrom (w : ℝ) : ℕ → ℝ
  | 0 => w
  | n + 1 => max 6 (windowFrom w n * 0.45)

theorem windowFrom_shift (w : ℝ) : ∀ k,
    windowFrom w (k + 1) = windowFrom (max 6 (w * 0.45)) k := by
  intro k
  induction k with
  | zero => rfl
  | succ k ih =>
    show max 6 (windowFrom w (k + 1) * 0.45) = _
    rw [ih]
    rfl

theorem windowSeq_eq_windowFrom : ∀ n, windowSeq n = windowFrom 50 n := by
  intro n
  induction n with
  | zero => rfl
  | succ n ih =>
    show max 6 (windowSeq n * 0.45) = max 6 (windowFrom 50 n * 0.45)
    rw [ih]

theorem refineStep_shape (g mass air_drag : ℝ) (req : SolveRequest)
    (maxElev v0 : ℝ) (cid : ℤ) (best : Option ShotResult) (center window : ℝ) :
    ∃ l b' fired,
      elevLoop g mass air_drag req v0 cid
        (linspace (max 0 (center - window)) (min maxElev (center + window)) 11)
        none = some l ∧
      refineStep g mass air_drag req maxElev v0 cid best center window =
        (b', l.elev_mil, max 6 (window * 0.45), fired) ∧
      (b' = some l ∨ b' = best) ∧
      (fired = true → ∃ rb, b' = some rb ∧
        rb.miss_total_m ≤ req.tolerance_m) := by
  obtain ⟨l, hl⟩ := elevLoop_some_of_ne_nil g mass air_drag req v0 cid
    (linspace (max 0 (center - window)) (min maxElev (center + window)) 11)
    none (linspace_ne_nil _ _)
  cases best with
  | none =>
    by_cases htol : l.miss_total_m ≤ req.tolerance_m
    · refine ⟨l, some l, true, hl, ?_, Or.inl rfl, fun _ => ⟨l, rfl, htol⟩⟩
      simp only [refineStep]
      rw [hl]
      simp [htol]
    · refine ⟨l, some l, false, hl, ?_, Or.inl rfl, fun hc => by cases hc⟩
      simp only [refineStep]
      rw [hl]
      simp [htol]
  | some b =>
    by_cases hlt : l.miss_total_m < b.miss_total_m
    · by_cases htol : l.miss_total_m ≤ req.tolerance_m
      · refine ⟨l, some l, true, hl, ?_, Or.inl rfl, fun _ => ⟨l, rfl, htol⟩⟩
        simp only [refineStep]
        rw [hl]
        simp [hlt, htol]
      · refine ⟨l, some l, false, hl, ?_, Or.inl rfl, fun hc => by cases hc⟩
        simp only [refineStep]
        rw [hl]
        simp [hlt, htol]
    · by_cases htol : b.miss_total_m ≤ req.tolerance_m
      · refine ⟨l, some b, true, hl, ?_, Or.inr rfl, fun _ => ⟨b, rfl, htol⟩⟩
        simp only [refineStep]
        rw [hl]
        simp [hlt, htol]
      · refine ⟨l, some b, false, hl, ?_, Or.inr rfl, fun hc => by cases hc⟩
        simp only [refineStep]
        rw [hl]
        simp [hlt, htol]

theorem refineStep_no_fire (g mass air_drag : ℝ) (req : SolveRequest)
    (maxElev v0 : ℝ) (cid : ℤ) (htol : req.tolerance_m < 0)
    (best : Option ShotResult) (hb : optNonneg best) (center window : ℝ) :
    ∃ b' c', refineStep g mass air_drag req maxElev v0 cid best center window =
      (b', c', max 6 (window * 0.45), false) ∧ optNonneg b' := by
  obtain ⟨l, b', fired, hl, heq, hprov, hfired⟩ :=
    refineStep_shape g mass air_drag req maxElev v0 cid best center window
  have hbnn : optNonneg b' := by
    rcases hprov with hp | hp
    · intro x hx
      rw [hp] at hx
      cases hx
      exact elevLoop_optNonneg g mass air_drag req v0 cid _ none
        (fun y hy => by cases hy) l hl
    · rw [hp]
      exact hb
  cases fired with
  | false => exact ⟨b', l.elev_mil, heq, hbnn⟩
  | true =>
    obtain ⟨rb, hrb, hrtol⟩ := hfired rfl
    have h0 : 0 ≤ rb.miss_total_m := hbnn rb hrb
    exact absurd (lt_of_le_of_lt hrtol htol) (not_lt.mpr h0)

theorem refineTrace_windows (g mass air_drag : ℝ) (req : SolveRequest)
    (maxElev v0 : ℝ) (cid : ℤ) : ∀ (n : ℕ) (best : Option ShotResult)
    (center window : ℝ), ∃ m, m ≤ n ∧ (1 ≤ n → 1 ≤ m) ∧
      (refineTrace g mass air_drag req maxElev v0 cid n best center window).map
        Prod.snd = ((List.range n).map (windowFrom window)).take m := by
  intro n
  induction n with
  | zero =>
    intro best center window
    exact ⟨0, le_rfl, fun h => absurd h (by simp), by simp [refineTrace]⟩
  | succ n ih =>
    intro best center window
    obtain ⟨l, b', fired, hl, heq, -, -⟩ :=
      refineStep_shape g mass air_drag req maxElev v0 cid best center window
    have hshift : (List.range (n + 1)).map (windowFrom window) =
        window :: (List.range n).map (windowFrom (max 6 (window * 0.45))) := by
      rw [range_map_zero_shift]
      refine congrArg₂ _ rfl ?_
      refine congrArg₂ _ ?_ rfl
      funext k
      rw [show 1 + k = k + 1 by omega]
      exact windowFrom_shift window k
    cases fired with
    | true =>
      refine ⟨1, by omega, fun _ => le_rfl, ?_⟩
      simp only [refineTrace]
      rw [heq]
      rw [hshift]
      simp
    | false =>
      obtain ⟨m, hm, h1m, htr⟩ := ih b' l.elev_mil (max 6 (window * 0.45))
      refine ⟨m + 1, by omega, fun _ => by omega, ?_⟩
      simp only [refineTrace]
      rw [heq]
      rw [hshift]
      show window :: (refineTrace g mass air_drag req maxElev v0 cid n b'
          l.elev_mil (max 6 (window * 0.45))).map Prod.snd =
        (window :: (List.range n).map
          (windowFrom (max 6 (window * 0.45)))).take (m + 1)
      rw [List.take_succ_cons, htr]

theorem refineTrace_windows_full (g mass air_drag : ℝ) (req : SolveRequest)
    (maxElev v0 : ℝ) (cid : ℤ) (htol : req.tolerance_m < 0) :
    ∀ (n : ℕ) (best : Option ShotResult) (center window : ℝ), optNonneg best →
      (refineTrace g mass air_drag req maxElev v0 cid n best center window).map
        Prod.snd = (List.range n).map (windowFrom window) := by
  intro n
  induction n with
  | zero =>
    intro best center window hb
    simp [refineTrace]
  | succ n ih =>
    intro best center window hb
    obtain ⟨b', c', heq, hbnn⟩ := refineStep_no_fire g mass air_drag req maxElev
      v0 cid htol best hb center window
    have hshift : (List.range (n + 1)).map (windowFrom window) =
        window :: (List.range n).map (windowFrom (max 6 (window * 0.45))) := by
      rw [range_map_zero_shift]
      refine congrArg₂ _ rfl ?_
      refine congrArg₂ _ ?_ rfl
      funext k
      rw [show 1 + k = k + 1 by omega]
      exact windowFrom_shift window k
    simp only [refineTrace]
    rw [heq]
    rw [hshift]
    show window :: (refineTrace g mass air_drag req maxElev v0 cid n b'
        c' (max 6 (window * 0.45))).map Prod.snd = _
    rw [ih b' c' (max 6 (window * 0.45)) hbnn]

theorem windowFrom_50_list :
    (List.range 4).map (windowFrom 50) = [50, 22.5, 10.125, 6] := by
  have h0 : windowFrom (50 : ℝ) 0 = 50 := rfl
  have h1 : windowFrom (50 : ℝ) 1 = 22.5 := by
    show max 6 (windowFrom (50 : ℝ) 0 * 0.45) = 22.5
    rw [h0]
    norm_num
  have h2 : windowFrom (50 : ℝ) 2 = 10.125 := by
    show max 6 (windowFrom (50 : ℝ) 1 * 0.45) = 10.125
    rw [h1]
    norm_num
  have h3 : windowFrom (50 : ℝ) 3 = 6 := by
    show max 6 (windowFrom (50 : ℝ) 2 * 0.45) = 6
    rw [h2]
    norm_num
  rw [show List.range 4 = [0, 1, 2, 3] from rfl]
  simp only [List.map_cons, List.map_nil, h0, h1, h2, h3]

/-- C7: the table-accelerated refinement.  Every round samples the 11-point
evenly spaced `linspace` grid over the current window clamped to
`[0, MAX_ELEVATION]`; one round recenters on the round's local best
elevation and shrinks the window to `max(6, window * 0.45)`; and starting
from 50 mil the windows the four rounds actually use form an initial
segment of [50, 22.5, 10.125, 6] (the whole sequence when no tolerance exit
can fire), a strictly decreasing sequence down to the 6-mil floor. -/
theorem fast_solve_refinement (g mass air_drag : ℝ) (req : SolveRequest)
    (maxElev v0 : ℝ) (cid : ℤ) :
    windowSeq 0 = 50 ∧
    (∀ n, windowSeq (n + 1) = max 6 (windowSeq n * 0.45)) ∧
    (windowSeq 1 = 22.5 ∧ windowSeq 2 = 10.125 ∧ windowSeq 3 = 6) ∧
    (windowSeq 1 < windowSeq 0 ∧ windowSeq 2 < windowSeq 1 ∧
      windowSeq 3 < windowSeq 2) ∧
    (∀ center window : ℝ,
      (linspace (max 0 (center - window)) (min maxElev (center + window))
        11).length = 11) ∧
    (∀ (center window : ℝ) (j : ℕ), j < 11 →
      (linspace (max 0 (center - window)) (min maxElev (center + window))
          11).getD j 0 =
        max 0 (center - window) + (j : ℝ) *
          ((min maxElev (center + window) - max 0 (center - window)) / 10)) ∧
    (∀ (best : Option ShotResult) (center window : ℝ), ∃ l b' fired,
      elevLoop g mass air_drag req v0 cid
        (linspace (max 0 (center - window)) (min maxElev (center + window)) 11)
        none = some l ∧
      refineStep g mass air_drag req maxElev v0 cid best center window =
        (b', l.elev_mil, max 6 (window * 0.45), fired)) ∧
    (∀ (best : Option ShotResult) (center : ℝ), ∃ m, m ≤ 4 ∧ 1 ≤ m ∧
      (refineTrace g mass air_drag req maxElev v0 cid 4 best center 50).map
        Prod.snd = ([50, 22.5, 10.125, 6] : List ℝ).take m) ∧
    (req.tolerance_m < 0 → ∀ (best : Option ShotResult) (center : ℝ),
      optNonneg best →
      (refineTrace g mass air_drag req maxElev v0 cid 4 best center 50).map
        Prod.snd = [50, 22.5, 10.125, 6]) := by
  have hs0 : windowSeq 0 = 50 := rfl
  have hs1 : windowSeq 1 = 22.5 := by
    rw [windowSeq_eq_windowFrom]
    show max 6 (windowFrom (50 : ℝ) 0 * 0.45) = 22.5
    norm_num [windowFrom]
  have hs2 : windowSeq 2 = 10.125 := by
    rw [windowSeq_eq_windowFrom]
    show max 6 (windowFrom (50 : ℝ) 1 * 0.45) = 10.125
    rw [show windowFrom (50 : ℝ) 1 = 22.5 by
      show max 6 (windowFrom (50 : ℝ) 0 * 0.45) = 22.5
      norm_num [windowFrom]]
    norm_num
  have hs3 : windowSeq 3 = 6 := by
    rw [windowSeq_eq_windowFrom]
    show max 6 (windowFrom (50 : ℝ) 2 * 0.45) = 6
    rw [show windowFrom (50 : ℝ) 2 = 10.125 by
      show max 6 (windowFrom (50 : ℝ) 1 * 0.45) = 10.125
      rw [show windowFrom (50 : ℝ) 1 = 22.5 by
        show max 6 (windowFrom (50 : ℝ) 0 * 0.45) = 22.5
        norm_num [windowFrom]]
      norm_num]
    norm_num
  refine ⟨hs0, fun n => rfl, ⟨hs1, hs2, hs3⟩, ?_, ?_, ?_, ?_, ?_, ?_⟩
  · rw [hs0, hs1, hs2, hs3]
    norm_num
  · intro center window
    exact linspace_length _ _ 11
  · intro center window j hj
    exact linspace_getD _ _ j hj
  · intro best center window
    obtain ⟨l, b', fired, hl, heq, -, -⟩ :=
      refineStep_shape g mass air_drag req maxElev v0 cid best center window
    exact ⟨l, b', fired, hl, heq⟩
  · intro best center
    obtain ⟨m, hm, h1m, htr⟩ := refineTrace_windows g mass air_drag req maxElev
      v0 cid 4 best center 50
    refine ⟨m, hm, h1m (by omega), ?_⟩
    rw [htr, windowFrom_50_list]
  · intro htol best center hb
    rw [refineTrace_windows_full g mass air_drag req maxElev v0 cid htol 4
      best center 50 hb, windowFrom_50_list]

/-- Counterexample to C9: a concrete run in which `fast_solve` fails fast
with InvalidCharge (the table set lists charge 2, absent from the weapon's
catalog), yet `suggest_best` called with the same tables returns `.ok none`:
the `try ... except Exception: pass` of src/solver.py swallows the error and
silently falls back to the brute-force scan, so the caller of the entry
point never sees it. -/
theorem suggest_best_swallows_error :
    fast_solve 0 1 0 ⟨0, 0, 0, (0, 0, 0), Arc.ANY, true, 0, 1, 1⟩ ⟨1, []⟩ 650
        ⟨some ⟨[], [2], []⟩, some ⟨[], [2], []⟩, some ⟨[], [2], []⟩⟩ =
      .error .InvalidCharge ∧
    suggest_best 0 1 0 ⟨0, 0, 0, (0, 0, 0), Arc.ANY, true, 0, 1, 1⟩ ⟨1, []⟩ 650
        (some ⟨some ⟨[], [2], []⟩, some ⟨[], [2], []⟩, some ⟨[], [2], []⟩⟩) =
      .ok none :=
  ⟨rfl, rfl⟩

/-- C9 (amended): configuration errors fail fast inside the core routines —
`load_folder` propagates the first unreadable table file, an unknown charge
id makes `v0_for_charge` fail with InvalidCharge, and both the brute-force
and the table-accelerated charge loops propagate charge and table-array
errors immediately — but the entry point `suggest_best` catches every error
of the table-accelerated path and silently falls back to the brute-force
scan instead of propagating it. -/
theorem core_error_propagation (g mass air_drag : ℝ) (req : SolveRequest)
    (w : Weapon) (maxElev : ℝ) (fd : FolderData) (tm : TableManager)
    (ts : TableSet) (cid : ℤ) (e : CoreError) (rest : List ℤ)
    (best : Option ShotResult) :
    (fd.directFile = .error e → load_folder fd = .error e) ∧
    (∀ d, fd.directFile = .ok d → fd.lowFile = .error e →
      load_folder fd = .error e) ∧
    (∀ d l, fd.directFile = .ok d → fd.lowFile = .ok l →
      fd.highFile = .error e → load_folder fd = .error e) ∧
    (cid ∉ dictKeys w.charges → w.v0_for_charge cid = .error .InvalidCharge) ∧
    (w.v0_for_charge cid = .error e →
      chargeLoop g mass air_drag req w maxElev (cid :: rest) best =
        .error e) ∧
    (w.v0_for_charge cid = .error e →
      fastChargeLoop g mass air_drag req w maxElev ts (cid :: rest) best =
        .error e) ∧
    (∀ v0, w.v0_for_charge cid = .ok v0 →
      guess_elev_for_range ts cid req.target_x_m = .error e →
      fastChargeLoop g mass air_drag req w maxElev ts (cid :: rest) best =
        .error e) ∧
    (fast_solve g mass air_drag req w maxElev tm = .error e →
      suggest_best g mass air_drag req w maxElev (some tm) =
        chargeLoop g mass air_drag req w maxElev (sortedKeys w) none) := by
  refine ⟨?_, ?_, ?_, ?_, ?_, ?_, ?_, ?_⟩
  · intro h
    simp [load_folder, h]
  · intro d hd hl
    simp [load_folder, hd, hl]
  · intro d l hd hl hh
    simp [load_folder, hd, hl, hh]
  · intro h
    simp [Weapon.v0_for_charge, dictLookup_eq_none w.charges cid h]
  · intro h
    simp [chargeLoop, h]
  · intro h
    simp [fastChargeLoop, h]
  · intro v0 hv hg
    simp [fastChargeLoop, hv, hg]
  · intro h
    simp only [suggest_best]
    rw [h]
